import Mathlib

set_option maxRecDepth 100000

/-!
Shallow embedding of src/src/util/virhash.c (libvirt chained hash table).

Modelling conventions:
- A C pointer that may be NULL is an Option. Payloads (void pointers) are
  Option V with none standing for the NULL pointer, so virHashLookup
  returning none models the C function returning NULL (for both an absent
  key and a stored NULL payload, exactly as in the source).
- The external collaborator virHashCodeGen (declared in virhashcode.h, not
  part of this repository view) is an arbitrary parameter
  hf : String -> Nat -> Nat; its uint32_t return value is modelled by
  truncating with % 2 ^ 32. The per-table random seed (virRandomBits(32))
  is a parameter of virHashNew.
- The destructor callback dataFree is modelled by the Bool field
  hasDataFree plus an explicit log: every mutating operation returns the
  list of payloads that were passed to the destructor, in call order, so
  that claims about destructor invocations are statements about that list.
- Return codes of type int / ssize_t are Int (0 success, -1 failure).
- String keys: C strings are compared with STREQ (strcmp == 0) and sorted
  with strcmp; Lean String equality models STREQ, and strcmp ordering is
  modelled char-wise on String.data (UTF-8 byte order coincides with code
  point order).
-/

/-- One hash table entry: struct _virHashEntry. The next pointer of the C
chain is represented by the position in the bucket list. -/
structure VirHashEntry (V : Type) where
  name : String
  payload : Option V
deriving DecidableEq

/-- The hash table: struct _virHashTable. The C field size is the length
of the table list; nbElems is kept separately exactly as in the source. -/
structure VirHashTable (V : Type) where
  table : List (List (VirHashEntry V))
  seed : Nat
  nbElems : Nat
  hasDataFree : Bool
deriving DecidableEq

/-- MAX_HASH_LEN from virhash.c. -/
def MAX_HASH_LEN : Nat := 8

/-- virHashComputeKey: virHashCodeGen(name, strlen(name), seed) % size.
The % 2 ^ 32 truncation models the uint32_t return type of virHashCodeGen. -/
def virHashComputeKey {V : Type} (hf : String → Nat → Nat) (t : VirHashTable V)
    (name : String) : Nat :=
  hf name t.seed % 2 ^ 32 % t.table.length

/-- virHashNew: 32 empty buckets, a fresh random 32-bit seed (here a
parameter), zero elements, and the destructor callback (here a flag). -/
def virHashNew (V : Type) (seed : Nat) (hasDataFree : Bool) : VirHashTable V :=
  { table := List.replicate 32 []
    seed := seed % 2 ^ 32
    nbElems := 0
    hasDataFree := hasDataFree }

/-- One step of the rechaining loop of virHashGrow: the entry is prepended
to the new bucket selected by the recomputed key. The key is computed
against the new size because the C code updates table->size before the
loop. -/
def growInsert {V : Type} (hf : String → Nat → Nat) (seed size : Nat)
    (acc : List (List (VirHashEntry V))) (e : VirHashEntry V) :
    List (List (VirHashEntry V)) :=
  let key := hf e.name seed % 2 ^ 32 % size
  acc.set key (e :: acc.getD key [])

/-- virHashGrow: rejects a size below 8 or above 8 * 2048; otherwise
allocates a new bucket array and rechains every entry of every old bucket
(in per-bucket order) into it, prepending each to its new bucket. -/
def virHashGrow {V : Type} (hf : String → Nat → Nat) (t : VirHashTable V)
    (size : Nat) : Option (VirHashTable V) :=
  if size < 8 then none
  else if size > 8 * 2048 then none
  else
    some { t with
           table := t.table.foldl
             (fun acc bucket => bucket.foldl (growInsert hf t.seed size) acc)
             (List.replicate size []) }

/-- The duplicate-check walk of virHashAddOrUpdateEntry, in the is_update
case: replaces the payload of the first entry whose name matches, keeping
its position and name, and reports the superseded payload. Returns none
when no entry in the chain matches. -/
def chainReplace {V : Type} (name : String) (userdata : Option V) :
    List (VirHashEntry V) → Option (List (VirHashEntry V) × Option V)
  | [] => none
  | e :: rest =>
    if e.name = name then some ({ e with payload := userdata } :: rest, e.payload)
    else (chainReplace name userdata rest).map (fun r => (e :: r.1, r.2))

/-- virHashAddOrUpdateEntry. Null table or name gives -1. A duplicate in
the target bucket is updated in place (is_update) or rejected with -1.
Otherwise a new entry is appended at the tail of the chain, nbElems is
incremented, and when the pre-existing chain length exceeds MAX_HASH_LEN a
grow to MAX_HASH_LEN * size is attempted, its failure silently ignored.
The third component is the list of payloads passed to the destructor. -/
def virHashAddOrUpdateEntry {V : Type} (hf : String → Nat → Nat)
    (t? : Option (VirHashTable V)) (name? : Option String)
    (userdata : Option V) (is_update : Bool) :
    Int × Option (VirHashTable V) × List (Option V) :=
  match t?, name? with
  | some t, some name =>
    let key := virHashComputeKey hf t name
    let bucket := t.table.getD key []
    match chainReplace name userdata bucket with
    | some (bucket', old) =>
      if is_update then
        (0, some { t with table := t.table.set key bucket' },
         if t.hasDataFree then [old] else [])
      else
        (-1, some t, [])
    | none =>
      let len := bucket.length
      let tIns : VirHashTable V :=
        { t with table := t.table.set key (bucket ++ [{ name := name, payload := userdata }])
                 nbElems := t.nbElems + 1 }
      let tFin :=
        if len > MAX_HASH_LEN then
          match virHashGrow hf tIns (MAX_HASH_LEN * tIns.table.length) with
          | some tG => tG
          | none => tIns
        else tIns
      (0, some tFin, [])
  | _, _ => (-1, t?, [])

/-- virHashAddEntry: add with duplicates rejected. -/
def virHashAddEntry {V : Type} (hf : String → Nat → Nat)
    (t? : Option (VirHashTable V)) (name? : Option String) (userdata : Option V) :
    Int × Option (VirHashTable V) × List (Option V) :=
  virHashAddOrUpdateEntry hf t? name? userdata false

/-- virHashUpdateEntry: add with duplicates overwritten. -/
def virHashUpdateEntry {V : Type} (hf : String → Nat → Nat)
    (t? : Option (VirHashTable V)) (name? : Option String) (userdata : Option V) :
    Int × Option (VirHashTable V) × List (Option V) :=
  virHashAddOrUpdateEntry hf t? name? userdata true

/-- virHashGetEntry: scan of the target bucket by exact name match. -/
def virHashGetEntry {V : Type} (hf : String → Nat → Nat)
    (t? : Option (VirHashTable V)) (name? : Option String) :
    Option (VirHashEntry V) :=
  match t?, name? with
  | some t, some name =>
    (t.table.getD (virHashComputeKey hf t name) []).find? (fun e => e.name == name)
  | _, _ => none

/-- virHashLookup: payload of the found entry, NULL (none) otherwise. -/
def virHashLookup {V : Type} (hf : String → Nat → Nat)
    (t? : Option (VirHashTable V)) (name? : Option String) : Option V :=
  match virHashGetEntry hf t? name? with
  | none => none
  | some e => e.payload

/-- virHashHasEntry: boolean form of the entry scan. -/
def virHashHasEntry {V : Type} (hf : String → Nat → Nat)
    (t? : Option (VirHashTable V)) (name? : Option String) : Bool :=
  (virHashGetEntry hf t? name?).isSome

/-- virHashSize: nbElems, or -1 for a null table. -/
def virHashSize {V : Type} (t? : Option (VirHashTable V)) : Int :=
  match t? with
  | none => -1
  | some t => t.nbElems

/-- The unlink walk of virHashRemoveEntry: drops the first entry whose name
matches and reports its payload; none when no entry matches. -/
def chainRemove {V : Type} (name : String) :
    List (VirHashEntry V) → Option (List (VirHashEntry V) × Option V)
  | [] => none
  | e :: rest =>
    if e.name = name then some (rest, e.payload)
    else (chainRemove name rest).map (fun r => (e :: r.1, r.2))

/-- virHashRemoveEntry: -1 for a null table or name or an absent key;
otherwise the entry is unlinked, its payload passed to the destructor (if
set), and nbElems decremented. The C decrement is a size_t decrement; it
is only reached when an entry was found, so on tables whose nbElems counts
the live entries it never underflows and Nat subtraction is faithful. -/
def virHashRemoveEntry {V : Type} (hf : String → Nat → Nat)
    (t? : Option (VirHashTable V)) (name? : Option String) :
    Int × Option (VirHashTable V) × List (Option V) :=
  match t?, name? with
  | some t, some name =>
    let key := virHashComputeKey hf t name
    match chainRemove name (t.table.getD key []) with
    | some (bucket', p) =>
      (0, some { t with table := t.table.set key bucket', nbElems := t.nbElems - 1 },
       if t.hasDataFree then [p] else [])
    | none => (-1, some t, [])
  | _, _ => (-1, t?, [])

/-- virHashSteal: looks the name up; when the payload is non-NULL it
disables the destructor, removes the entry, restores the destructor, and
returns the payload. A NULL payload (or absent key) skips the removal. -/
def virHashSteal {V : Type} (hf : String → Nat → Nat)
    (t? : Option (VirHashTable V)) (name? : Option String) :
    Option V × Option (VirHashTable V) × List (Option V) :=
  match virHashLookup hf t? name? with
  | some d =>
    match t? with
    | some t =>
      let res := virHashRemoveEntry hf (some { t with hasDataFree := false }) name?
      (some d, res.2.1.map (fun t1 => { t1 with hasDataFree := t.hasDataFree }), res.2.2)
    | none => (some d, t?, [])
  | none => (none, t?, [])

/-- The per-bucket walk of virHashRemoveSet: every entry matched by the
predicate is unlinked; the result is the remaining chain, the number of
removals, and the removed payloads in traversal order. -/
def chainRemoveSet {V : Type} (p : Option V → String → Bool) :
    List (VirHashEntry V) → List (VirHashEntry V) × Nat × List (Option V)
  | [] => ([], 0, [])
  | e :: rest =>
    let r := chainRemoveSet p rest
    if p e.payload e.name then (r.1, r.2.1 + 1, e.payload :: r.2.2)
    else (e :: r.1, r.2.1, r.2.2)

/-- virHashRemoveSet: walks every bucket removing matched entries,
decrementing nbElems per removal, and returns the removal count (-1 for a
null table). The removed payloads go to the destructor only when it is
set. -/
def virHashRemoveSet {V : Type} (t? : Option (VirHashTable V))
    (p : Option V → String → Bool) :
    Int × Option (VirHashTable V) × List (Option V) :=
  match t? with
  | some t =>
    let count := ((t.table.map (fun b => (chainRemoveSet p b).2.1)).sum)
    (Int.ofNat count,
     some { t with table := t.table.map (fun b => (chainRemoveSet p b).1)
                   nbElems := t.nbElems - count },
     if t.hasDataFree then (t.table.map (fun b => (chainRemoveSet p b).2.2)).flatten
     else [])
  | none => (-1, t?, [])

/-- All entries of the table in virHashForEach visitation order: buckets in
array order, chains in order. -/
def tableEntries {V : Type} (t : VirHashTable V) : List (VirHashEntry V) :=
  t.table.flatten

/-- The key of every live entry, in visitation order. -/
def tableKeys {V : Type} (t : VirHashTable V) : List String :=
  (tableEntries t).map (fun e => e.name)

/-- The (key, payload) pairs in virHashForEach visitation order; this is
what the virHashGetItemsIterator collector accumulates, since it never
aborts. -/
def tableItems {V : Type} (t : VirHashTable V) : List (String × Option V) :=
  (tableEntries t).map (fun e => (e.name, e.payload))

/-- Char-wise strict order on strings modelling strcmp < 0 (comparison of
the unsigned byte sequences; UTF-8 byte order equals code point order). -/
def charListLt : List Char → List Char → Bool
  | [], [] => false
  | [], _ :: _ => true
  | _ :: _, [] => false
  | a :: as, b :: bs =>
    if a.toNat < b.toNat then true
    else if b.toNat < a.toNat then false
    else charListLt as bs

/-- strcmp(a, b) <= 0 on the char sequences, the sorting order used by
virHashGetItemsKeySorter. -/
def strcmpLe (a b : String) : Bool := ! charListLt b.data a.data

/-- virHashGetItems: snapshot of all (key, value) pairs via virHashForEach,
optionally qsorted by virHashGetItemsKeySorter (strcmp on keys). qsort is
modelled by mergeSort; under the key-uniqueness invariant the comparator
never sees equal keys, so every sort produces the same list. The C array's
terminating NULL sentinel is the end of the list. -/
def virHashGetItems {V : Type} (t : VirHashTable V) (sortKeys : Bool) :
    List (String × Option V) :=
  if sortKeys then (tableItems t).mergeSort (fun a b => strcmpLe a.1 b.1)
  else tableItems t

/-- The iteration loop shared by virHashForEachSafe and virHashForEachSorted:
walks the snapshot until the callback returns a negative value. The opaque
context mutated by the C callback is the explicitly threaded state s. -/
def virHashIterate {V σ : Type} (f : σ → Option V → String → σ × Int) :
    List (String × Option V) → σ → σ × Int
  | [], s => (s, 0)
  | (k, v) :: rest, s =>
    let r := f s v k
    if r.2 < 0 then (r.1, -1) else virHashIterate f rest r.1

/-- virHashForEachSorted: iterates the key-sorted snapshot. -/
def virHashForEachSorted {V σ : Type} (t : VirHashTable V)
    (f : σ → Option V → String → σ × Int) (s : σ) : σ × Int :=
  virHashIterate f (virHashGetItems t true) s

/-- The walk of virHashSearch specialised to virHashEqualSearcher: stops at
the first entry of table1 whose key is missing in table2 (NULL lookup) or
whose values compare unequal, making the equal flag false; reaching the
end leaves the flag true. -/
def virHashEqualSearch {V : Type} (hf : String → Nat → Nat)
    (t2 : VirHashTable V) (compar : Option V → Option V → Int) :
    List (VirHashEntry V) → Bool
  | [] => true
  | e :: rest =>
    let value := virHashLookup hf (some t2) (some e.name)
    if value.isNone || compar value e.payload != 0 then false
    else virHashEqualSearch hf t2 compar rest

/-- virHashEqual. The C pointer comparison table1 == table2 has no
structural counterpart in the embedding, so the outcome of that aliasing
test is the explicit parameter sameRef (sameRef = true is only a faithful
model when both arguments are the very same table). -/
def virHashEqual {V : Type} (hf : String → Nat → Nat) (sameRef : Bool)
    (t1? t2? : Option (VirHashTable V))
    (compar : Option V → Option V → Int) : Bool :=
  if sameRef then true
  else
    match t1?, t2? with
    | some t1, some t2 =>
      if virHashSize (some t1) ≠ virHashSize (some t2) then false
      else virHashEqualSearch hf t2 compar (tableEntries t1)
    | _, _ => false

/-- Operations of the public mutating interface, for stating invariants
over operation sequences. -/
inductive HashOp (V : Type) where
  | add (name : String) (v : Option V)
  | update (name : String) (v : Option V)
  | remove (name : String)
  | removeSet (p : Option V → String → Bool)

/-- Running one operation on a live table (the public entry points never
return a null table for a non-null input, so the state is total). -/
def applyOp {V : Type} (hf : String → Nat → Nat) (t : VirHashTable V) :
    HashOp V → VirHashTable V
  | .add name v => ((virHashAddEntry hf (some t) (some name) v).2.1).getD t
  | .update name v => ((virHashUpdateEntry hf (some t) (some name) v).2.1).getD t
  | .remove name => ((virHashRemoveEntry hf (some t) (some name)).2.1).getD t
  | .removeSet p => ((virHashRemoveSet (some t) p).2.1).getD t

/-- Running a sequence of operations. -/
def applyOps {V : Type} (hf : String → Nat → Nat) (ops : List (HashOp V))
    (t : VirHashTable V) : VirHashTable V :=
  ops.foldl (applyOp hf) t

/-- The structural invariant of a live table: a non-empty bucket array,
every entry chained in the bucket its key selects, pairwise distinct keys,
and nbElems equal to the number of live entries. -/
def WF {V : Type} (hf : String → Nat → Nat) (t : VirHashTable V) : Prop :=
  0 < t.table.length ∧
  (∀ i < t.table.length, ∀ e ∈ t.table.getD i [], virHashComputeKey hf t e.name = i) ∧
  (tableKeys t).Nodup ∧
  t.nbElems = (tableKeys t).length

/-- Bucket correctness of a candidate bucket array: every entry sits in the
bucket its hashed name selects, modulo the given size. -/
def bucketsOk {V : Type} (hf : String → Nat → Nat) (seed size : Nat)
    (l : List (List (VirHashEntry V))) : Prop :=
  ∀ i < l.length, ∀ e ∈ l.getD i [], hf e.name seed % 2 ^ 32 % size = i

/-- The freshly appended table of the not-found branch of
virHashAddOrUpdateEntry, before the grow attempt. -/
def vh_tIns {V : Type} (hf : String → Nat → Nat) (t : VirHashTable V)
    (name : String) (v : Option V) : VirHashTable V :=
  { t with
    table := t.table.set (virHashComputeKey hf t name)
      (t.table.getD (virHashComputeKey hf t name) [] ++
        [{ name := name, payload := v }])
    nbElems := t.nbElems + 1 }

/-- The table produced by the not-found branch of virHashAddOrUpdateEntry,
after the conditional grow attempt (a failed grow is absorbed). -/
def vh_addResult {V : Type} (hf : String → Nat → Nat) (t : VirHashTable V)
    (name : String) (v : Option V) : VirHashTable V :=
  if (t.table.getD (virHashComputeKey hf t name) []).length > MAX_HASH_LEN then
    match virHashGrow hf (vh_tIns hf t name v)
        (MAX_HASH_LEN * (vh_tIns hf t name v).table.length) with
    | some tG => tG
    | none => vh_tIns hf t name v
  else vh_tIns hf t name v

/-- The constant-zero hash used for concrete evaluations: every key lands
in bucket 0, making chain behaviour easy to exhibit. -/
def hfZ : String → Nat → Nat := fun _ _ => 0

/-- A small concrete table with two entries, for concrete instantiations. -/
def vhT0 : VirHashTable Nat :=
  applyOps hfZ [HashOp.add "a" (some 1), HashOp.add "b" (some 2)]
    (virHashNew Nat 0 true)

/-- A second small table with the same keys and payloads as vhT0, built in
the other order, for the equality claims. -/
def vhT1 : VirHashTable Nat :=
  applyOps hfZ [HashOp.add "b" (some 2), HashOp.add "a" (some 1)]
    (virHashNew Nat 0 true)

/-- Nine distinct keys all hashing (under hfZ) to bucket 0: after adding
them the chain at bucket 0 has 9 entries and no grow has happened. -/
def vhT9 : VirHashTable Nat :=
  applyOps hfZ
    [HashOp.add "k1" (some 1), HashOp.add "k2" (some 2), HashOp.add "k3" (some 3),
     HashOp.add "k4" (some 4), HashOp.add "k5" (some 5), HashOp.add "k6" (some 6),
     HashOp.add "k7" (some 7), HashOp.add "k8" (some 8), HashOp.add "k9" (some 9)]
    (virHashNew Nat 0 false)

/-- A table holding one entry whose stored payload is the NULL pointer. -/
def vhTNull : VirHashTable Nat :=
  applyOps hfZ [HashOp.add "a" none] (virHashNew Nat 0 true)

/-- A 3-key table over keys b, a, c for the sorted-iteration scenario. -/
def vhTbac : VirHashTable Nat :=
  applyOps hfZ
    [HashOp.add "b" (some 1), HashOp.add "a" (some 2), HashOp.add "c" (some 3)]
    (virHashNew Nat 0 false)

instance vhWFDecidable {V : Type} (hf : String → Nat → Nat)
    (t : VirHashTable V) : Decidable (WF hf t) := by
  unfold WF
  infer_instance

/-! ### List plumbing -/

theorem vh_getD_set_self {α : Type} (l : List (List α)) (k : Nat) (b : List α)
    (hk : k < l.length) : (l.set k b).getD k [] = b := by
  rw [List.getD_eq_getElem (l.set k b) [] (by simpa using hk)]
  rw [List.getElem_set_self]

theorem vh_getD_set_ne {α : Type} (l : List (List α)) (i k : Nat) (b : List α)
    (h : k ≠ i) : (l.set k b).getD i [] = l.getD i [] := by
  by_cases hi : i < l.length
  · rw [List.getD_eq_getElem (l.set k b) [] (by simpa using hi),
        List.getD_eq_getElem l [] hi, List.getElem_set_ne h]
  · rw [List.getD_eq_default _ _ (by simpa using Nat.le_of_not_lt hi),
        List.getD_eq_default _ _ (Nat.le_of_not_lt hi)]

theorem vh_set_getD_self {α : Type} (l : List (List α)) (k : Nat)
    (hk : k < l.length) : l.set k (l.getD k []) = l := by
  apply List.ext_getElem (by simp)
  intro i h1 h2
  rw [List.getElem_set]
  split
  · rename_i hik
    subst hik
    exact (List.getD_eq_getElem l [] hk).symm ▸ rfl
  · rfl

theorem vh_mem_getD_flatten {α : Type} {l : List (List α)} {i : Nat} {e : α}
    (he : e ∈ l.getD i []) : e ∈ l.flatten := by
  by_cases hi : i < l.length
  · rw [List.getD_eq_getElem l [] hi] at he
    exact List.mem_flatten.mpr ⟨l[i], List.getElem_mem hi, he⟩
  · rw [List.getD_eq_default _ _ (Nat.le_of_not_lt hi)] at he
    cases he

theorem vh_flatten_perm_getD {α : Type} (l : List (List α)) (k : Nat)
    (hk : k < l.length) :
    l.flatten.Perm (l.getD k [] ++ (l.set k []).flatten) := by
  induction l generalizing k with
  | nil => simp at hk
  | cons b tl ih =>
    cases k with
    | zero => simp
    | succ k =>
      have hk' : k < tl.length := by simpa using hk
      have h1 := ih k hk'
      simp only [List.flatten_cons, List.getD_cons_succ, List.set_cons_succ]
      have h2 : (b ++ tl.flatten).Perm (b ++ (tl.getD k [] ++ (tl.set k []).flatten)) :=
        List.Perm.append_left b h1
      have h3 : (b ++ (tl.getD k [] ++ (tl.set k []).flatten)).Perm
          (tl.getD k [] ++ (b ++ (tl.set k []).flatten)) := by
        rw [← List.append_assoc, ← List.append_assoc]
        exact List.Perm.append_right _ List.perm_append_comm
      exact h2.trans h3

theorem vh_flatten_set_perm {α : Type} (l : List (List α)) (k : Nat) (b : List α)
    (hk : k < l.length) :
    (l.set k b).flatten.Perm (b ++ (l.set k []).flatten) := by
  have h := vh_flatten_perm_getD (l.set k b) k (by simpa using hk)
  rw [vh_getD_set_self _ _ _ hk, List.set_set] at h
  exact h

theorem vh_find?_append_not {α : Type} {p : α → Bool} {pre rest : List α}
    (h : ∀ x ∈ pre, ¬ p x) : List.find? p (pre ++ rest) = List.find? p rest := by
  rw [List.find?_append]
  have hn : List.find? p pre = none := List.find?_eq_none.mpr h
  simp [hn]

/-! ### Chain walk lemmas -/

theorem chainReplace_eq_none_iff {V : Type} (name : String) (v : Option V)
    (b : List (VirHashEntry V)) :
    chainReplace name v b = none ↔ ∀ e ∈ b, e.name ≠ name := by
  induction b with
  | nil => simp [chainReplace]
  | cons a rest ih =>
    by_cases ha : a.name = name
    · simp [chainReplace, ha]
    · simp [chainReplace, ha, Option.map_eq_none', ih]

theorem chainReplace_eq_some {V : Type} {name : String} {v : Option V}
    {b b' : List (VirHashEntry V)} {old : Option V}
    (h : chainReplace name v b = some (b', old)) :
    ∃ pre e post, b = pre ++ e :: post ∧ (∀ x ∈ pre, x.name ≠ name) ∧
      e.name = name ∧ e.payload = old ∧
      b' = pre ++ { name := name, payload := v } :: post := by
  induction b generalizing b' old with
  | nil => simp [chainReplace] at h
  | cons a rest ih =>
    by_cases ha : a.name = name
    · simp only [chainReplace, if_pos ha, Option.some.injEq, Prod.mk.injEq] at h
      refine ⟨[], a, rest, by simp, by simp, ha, h.2, ?_⟩
      have hrepl : ({ a with payload := v } : VirHashEntry V) =
          { name := name, payload := v } := by
        cases a
        simp_all
      simp [← h.1, hrepl]
    · simp only [chainReplace, if_neg ha, Option.map_eq_some'] at h
      obtain ⟨⟨rest', o⟩, hcr, heq⟩ := h
      simp only [Prod.mk.injEq] at heq
      obtain ⟨pre, e, post, hsplit, hpre, hname, hpay, hrest'⟩ := ih hcr
      refine ⟨a :: pre, e, post, by simp [hsplit], ?_, hname, by rw [hpay, heq.2], ?_⟩
      · intro x hx
        rcases List.mem_cons.mp hx with hx | hx
        · rw [hx]; exact ha
        · exact hpre x hx
      · rw [← heq.1, hrest']
        simp

theorem chainRemove_eq_none_iff {V : Type} (name : String)
    (b : List (VirHashEntry V)) :
    chainRemove name b = none ↔ ∀ e ∈ b, e.name ≠ name := by
  induction b with
  | nil => simp [chainRemove]
  | cons a rest ih =>
    by_cases ha : a.name = name
    · simp [chainRemove, ha]
    · simp [chainRemove, ha, Option.map_eq_none', ih]

theorem chainRemove_eq_some {V : Type} {name : String}
    {b b' : List (VirHashEntry V)} {p : Option V}
    (h : chainRemove name b = some (b', p)) :
    ∃ pre e post, b = pre ++ e :: post ∧ (∀ x ∈ pre, x.name ≠ name) ∧
      e.name = name ∧ e.payload = p ∧ b' = pre ++ post := by
  induction b generalizing b' p with
  | nil => simp [chainRemove] at h
  | cons a rest ih =>
    by_cases ha : a.name = name
    · simp only [chainRemove, if_pos ha, Option.some.injEq, Prod.mk.injEq] at h
      exact ⟨[], a, rest, by simp, by simp, ha, h.2, by simp [← h.1]⟩
    · simp only [chainRemove, if_neg ha, Option.map_eq_some'] at h
      obtain ⟨⟨rest', o⟩, hcr, heq⟩ := h
      simp only [Prod.mk.injEq] at heq
      obtain ⟨pre, e, post, hsplit, hpre, hname, hpay, hrest'⟩ := ih hcr
      refine ⟨a :: pre, e, post, by simp [hsplit], ?_, hname, by rw [hpay, heq.2], ?_⟩
      · intro x hx
        rcases List.mem_cons.mp hx with hx | hx
        · rw [hx]; exact ha
        · exact hpre x hx
      · rw [← heq.1, hrest']
        simp

theorem chainReplace_isSome_iff {V : Type} (name : String) (v : Option V)
    (b : List (VirHashEntry V)) :
    (chainReplace name v b).isSome ↔ ∃ e ∈ b, e.name = name := by
  rw [Option.isSome_iff_ne_none]
  constructor
  · intro h
    by_contra hx
    push_neg at hx
    exact h ((chainReplace_eq_none_iff name v b).mpr hx)
  · rintro ⟨e, he, hn⟩ h
    exact (chainReplace_eq_none_iff name v b).mp h e he hn

theorem chainRemove_isSome_iff {V : Type} (name : String)
    (b : List (VirHashEntry V)) :
    (chainRemove name b).isSome ↔ ∃ e ∈ b, e.name = name := by
  rw [Option.isSome_iff_ne_none]
  constructor
  · intro h
    by_contra hx
    push_neg at hx
    exact h ((chainRemove_eq_none_iff name b).mpr hx)
  · rintro ⟨e, he, hn⟩ h
    exact (chainRemove_eq_none_iff name b).mp h e he hn

theorem vh_find?_name_eq_none {V : Type} {name : String} {b : List (VirHashEntry V)}
    (h : ∀ e ∈ b, e.name ≠ name) : b.find? (fun e => e.name == name) = none :=
  List.find?_eq_none.mpr (by intro x hx; simpa using h x hx)

/-! ### Consequences of the structural invariant -/

theorem vh_computeKey_lt {V : Type} (hf : String → Nat → Nat) (t : VirHashTable V)
    (name : String) (h : 0 < t.table.length) :
    virHashComputeKey hf t name < t.table.length :=
  Nat.mod_lt _ h

theorem WF.entry_bucket {V : Type} {hf : String → Nat → Nat} {t : VirHashTable V}
    (hWF : WF hf t) {e : VirHashEntry V} (he : e ∈ tableEntries t) :
    e ∈ t.table.getD (virHashComputeKey hf t e.name) [] := by
  obtain ⟨s, hs, hes⟩ := List.mem_flatten.mp he
  obtain ⟨i, hi, hgi⟩ := List.getElem_of_mem hs
  have hmem : e ∈ t.table.getD i [] := by
    rw [List.getD_eq_getElem _ _ hi, hgi]
    exact hes
  have hk := hWF.2.1 i hi e hmem
  rw [hk]
  exact hmem

theorem vh_mem_keys_iff {V : Type} (t : VirHashTable V) (name : String) :
    name ∈ tableKeys t ↔ ∃ e ∈ tableEntries t, e.name = name := by
  simp [tableKeys]

theorem vh_getEntry_eq_none {V : Type} (hf : String → Nat → Nat)
    (t : VirHashTable V) (name : String) (h : name ∉ tableKeys t) :
    virHashGetEntry hf (some t) (some name) = none := by
  simp only [virHashGetEntry]
  apply vh_find?_name_eq_none
  intro e he hn
  exact h ((vh_mem_keys_iff t name).mpr ⟨e, vh_mem_getD_flatten he, hn⟩)

theorem vh_getEntry_of_mem {V : Type} {hf : String → Nat → Nat}
    {t : VirHashTable V} (hWF : WF hf t) {e : VirHashEntry V}
    (he : e ∈ tableEntries t) {name : String} (hn : e.name = name) :
    virHashGetEntry hf (some t) (some name) = some e := by
  have hb : e ∈ t.table.getD (virHashComputeKey hf t name) [] := by
    rw [← hn]
    exact hWF.entry_bucket he
  have hex : ∃ x ∈ t.table.getD (virHashComputeKey hf t name) [],
      (x.name == name) = true := ⟨e, hb, by simp [hn]⟩
  obtain ⟨x, hfind⟩ := Option.isSome_iff_exists.mp (List.find?_isSome.mpr hex)
  have hx1 := @List.find?_some _ _ _ _ hfind
  have hx2 : x ∈ t.table.getD (virHashComputeKey hf t name) [] :=
    List.mem_of_find?_eq_some hfind
  have hxe : x = e := by
    have hinj := List.inj_on_of_nodup_map hWF.2.2.1
    exact hinj (vh_mem_getD_flatten hx2) he (by simp at hx1; rw [hx1, hn])
  simp only [virHashGetEntry]
  rw [hfind, hxe]

theorem vh_lookup_of_mem {V : Type} {hf : String → Nat → Nat}
    {t : VirHashTable V} (hWF : WF hf t) {e : VirHashEntry V}
    (he : e ∈ tableEntries t) {name : String} (hn : e.name = name) :
    virHashLookup hf (some t) (some name) = e.payload := by
  simp [virHashLookup, vh_getEntry_of_mem hWF he hn]

theorem vh_lookup_not_mem {V : Type} (hf : String → Nat → Nat)
    (t : VirHashTable V) (name : String) (h : name ∉ tableKeys t) :
    virHashLookup hf (some t) (some name) = none := by
  simp [virHashLookup, vh_getEntry_eq_none hf t name h]

/-! ### virHashGrow -/

theorem growInsert_length {V : Type} (hf : String → Nat → Nat) (seed size : Nat)
    (acc : List (List (VirHashEntry V))) (e : VirHashEntry V) :
    (growInsert hf seed size acc e).length = acc.length := by
  simp [growInsert]

theorem growInsert_flatten_perm {V : Type} (hf : String → Nat → Nat)
    (seed size : Nat) (acc : List (List (VirHashEntry V))) (e : VirHashEntry V)
    (hlen : acc.length = size) (hs : 0 < size) :
    (growInsert hf seed size acc e).flatten.Perm (e :: acc.flatten) := by
  have hk : hf e.name seed % 2 ^ 32 % size < acc.length := by
    rw [hlen]
    exact Nat.mod_lt _ hs
  simp only [growInsert]
  have h1 := vh_flatten_set_perm acc (hf e.name seed % 2 ^ 32 % size)
    (e :: acc.getD (hf e.name seed % 2 ^ 32 % size) []) hk
  have h2 := vh_flatten_perm_getD acc (hf e.name seed % 2 ^ 32 % size) hk
  refine h1.trans ?_
  simp only [List.cons_append]
  exact List.Perm.cons e h2.symm

theorem growFold_chain_length {V : Type} (hf : String → Nat → Nat)
    (seed size : Nat) (chain : List (VirHashEntry V))
    (acc : List (List (VirHashEntry V))) :
    (chain.foldl (growInsert hf seed size) acc).length = acc.length := by
  induction chain generalizing acc with
  | nil => rfl
  | cons e rest ih => rw [List.foldl_cons, ih, growInsert_length]

theorem growFold_chain_perm {V : Type} (hf : String → Nat → Nat)
    (seed size : Nat) (chain : List (VirHashEntry V))
    (acc : List (List (VirHashEntry V))) (hlen : acc.length = size)
    (hs : 0 < size) :
    (chain.foldl (growInsert hf seed size) acc).flatten.Perm
      (chain ++ acc.flatten) := by
  induction chain generalizing acc with
  | nil => simp
  | cons e rest ih =>
    rw [List.foldl_cons]
    have hlen' : (growInsert hf seed size acc e).length = size := by
      rw [growInsert_length, hlen]
    have h1 := ih (growInsert hf seed size acc e) hlen'
    refine h1.trans ?_
    have h2 := growInsert_flatten_perm hf seed size acc e hlen hs
    have h3 : (rest ++ (growInsert hf seed size acc e).flatten).Perm
        (rest ++ (e :: acc.flatten)) := List.Perm.append_left rest h2
    refine h3.trans ?_
    exact List.perm_middle

theorem growFold_buckets_length {V : Type} (hf : String → Nat → Nat)
    (seed size : Nat) (buckets : List (List (VirHashEntry V)))
    (acc : List (List (VirHashEntry V))) :
    (buckets.foldl (fun a b => b.foldl (growInsert hf seed size) a) acc).length =
      acc.length := by
  induction buckets generalizing acc with
  | nil => rfl
  | cons b rest ih => rw [List.foldl_cons, ih, growFold_chain_length]

theorem growFold_buckets_perm {V : Type} (hf : String → Nat → Nat)
    (seed size : Nat) (buckets : List (List (VirHashEntry V)))
    (acc : List (List (VirHashEntry V))) (hlen : acc.length = size)
    (hs : 0 < size) :
    (buckets.foldl (fun a b => b.foldl (growInsert hf seed size) a) acc).flatten.Perm
      (buckets.flatten ++ acc.flatten) := by
  induction buckets generalizing acc with
  | nil => simp
  | cons b rest ih =>
    rw [List.foldl_cons]
    have hlen' : (b.foldl (growInsert hf seed size) acc).length = size := by
      rw [growFold_chain_length, hlen]
    have h1 := ih (b.foldl (growInsert hf seed size) acc) hlen'
    refine h1.trans ?_
    have h2 := growFold_chain_perm hf seed size b acc hlen hs
    have h3 : (rest.flatten ++ (b.foldl (growInsert hf seed size) acc).flatten).Perm
        (rest.flatten ++ (b ++ acc.flatten)) := List.Perm.append_left rest.flatten h2
    refine h3.trans ?_
    rw [List.flatten_cons, ← List.append_assoc]
    exact List.Perm.append_right _ List.perm_append_comm

theorem vh_getD_replicate {α : Type} (n i : Nat) :
    (List.replicate n ([] : List α)).getD i [] = [] := by
  by_cases hi : i < n
  · rw [List.getD_eq_getElem _ _ (by simpa using hi)]
    simp
  · rw [List.getD_eq_default _ _ (by simpa using Nat.le_of_not_lt hi)]

theorem vh_flatten_replicate_nil {α : Type} (n : Nat) :
    (List.replicate n ([] : List α)).flatten = [] := by
  induction n with
  | zero => rfl
  | succ n ih => rw [List.replicate_succ, List.flatten_cons, List.nil_append, ih]

theorem bucketsOk_replicate {V : Type} (hf : String → Nat → Nat)
    (seed size : Nat) :
    bucketsOk hf seed size (List.replicate size ([] : List (VirHashEntry V))) := by
  intro i hi e he
  rw [vh_getD_replicate] at he
  cases he

theorem growInsert_bucketsOk {V : Type} {hf : String → Nat → Nat}
    {seed size : Nat} {acc : List (List (VirHashEntry V))}
    (hok : bucketsOk hf seed size acc) (hlen : acc.length = size)
    (hs : 0 < size) (e : VirHashEntry V) :
    bucketsOk hf seed size (growInsert hf seed size acc e) := by
  intro i hi x hx
  simp only [growInsert] at hx hi
  rw [List.length_set] at hi
  have hklt : hf e.name seed % 2 ^ 32 % size < acc.length := by
    rw [hlen]
    exact Nat.mod_lt _ hs
  by_cases hik : (hf e.name seed % 2 ^ 32 % size) = i
  · rw [← hik] at hx ⊢
    rw [vh_getD_set_self _ _ _ hklt] at hx
    rcases List.mem_cons.mp hx with hx | hx
    · rw [hx]
    · exact hok _ hklt x hx
  · rw [vh_getD_set_ne _ _ _ _ hik] at hx
    exact hok i hi x hx

theorem growFold_chain_bucketsOk {V : Type} {hf : String → Nat → Nat}
    {seed size : Nat} (chain : List (VirHashEntry V))
    {acc : List (List (VirHashEntry V))} (hok : bucketsOk hf seed size acc)
    (hlen : acc.length = size) (hs : 0 < size) :
    bucketsOk hf seed size (chain.foldl (growInsert hf seed size) acc) := by
  induction chain generalizing acc with
  | nil => exact hok
  | cons e rest ih =>
    rw [List.foldl_cons]
    exact ih (growInsert_bucketsOk hok hlen hs e)
      (by rw [growInsert_length, hlen])

theorem growFold_buckets_bucketsOk {V : Type} {hf : String → Nat → Nat}
    {seed size : Nat} (buckets : List (List (VirHashEntry V)))
    {acc : List (List (VirHashEntry V))} (hok : bucketsOk hf seed size acc)
    (hlen : acc.length = size) (hs : 0 < size) :
    bucketsOk hf seed size
      (buckets.foldl (fun a b => b.foldl (growInsert hf seed size) a) acc) := by
  induction buckets generalizing acc with
  | nil => exact hok
  | cons b rest ih =>
    rw [List.foldl_cons]
    exact ih (growFold_chain_bucketsOk b hok hlen hs)
      (by rw [growFold_chain_length, hlen])

theorem virHashGrow_spec {V : Type} {hf : String → Nat → Nat}
    {t : VirHashTable V} {size : Nat} {t' : VirHashTable V}
    (h : virHashGrow hf t size = some t') :
    t'.table.length = size ∧ t'.seed = t.seed ∧ t'.nbElems = t.nbElems ∧
    t'.hasDataFree = t.hasDataFree ∧ (tableEntries t').Perm (tableEntries t) ∧
    (∀ i < t'.table.length, ∀ e ∈ t'.table.getD i [],
      virHashComputeKey hf t' e.name = i) ∧
    8 ≤ size ∧ size ≤ 8 * 2048 := by
  unfold virHashGrow at h
  by_cases h1 : size < 8
  · rw [if_pos h1] at h; cases h
  rw [if_neg h1] at h
  by_cases h2 : size > 8 * 2048
  · rw [if_pos h2] at h; cases h
  rw [if_neg h2] at h
  have hs : 0 < size := by omega
  injection h with h
  subst h
  have hrep : (List.replicate size ([] : List (VirHashEntry V))).length = size := by
    simp
  have hlen : (t.table.foldl
      (fun a b => b.foldl (growInsert hf t.seed size) a)
      (List.replicate size [])).length = size := by
    rw [growFold_buckets_length, hrep]
  refine ⟨hlen, rfl, rfl, rfl, ?_, ?_, by omega, by omega⟩
  · have hp := growFold_buckets_perm hf t.seed size t.table
      (List.replicate size []) hrep hs
    rw [vh_flatten_replicate_nil, List.append_nil] at hp
    exact hp
  · intro i hi e he
    have hok := @growFold_buckets_bucketsOk V hf t.seed size t.table
      (List.replicate size []) (bucketsOk_replicate hf t.seed size) hrep hs
    have := hok i (by simpa [hlen] using hi) e he
    simp only [virHashComputeKey]
    rw [hlen]
    exact this

theorem WF_grow {V : Type} {hf : String → Nat → Nat} {t t' : VirHashTable V}
    {size : Nat} (hWF : WF hf t) (h : virHashGrow hf t size = some t') :
    WF hf t' ∧ (tableKeys t').Perm (tableKeys t) ∧
    t'.nbElems = t.nbElems ∧ t'.seed = t.seed ∧
    t'.hasDataFree = t.hasDataFree := by
  obtain ⟨hlen, hseed, hnb, hdf, hperm, hok, hlo, hhi⟩ := virHashGrow_spec h
  have hkeys : (tableKeys t').Perm (tableKeys t) := by
    unfold tableKeys
    exact hperm.map (fun e => e.name)
  refine ⟨⟨by omega, hok, hkeys.symm.nodup hWF.2.2.1, ?_⟩, hkeys, hnb, hseed, hdf⟩
  rw [hnb, hWF.2.2.2, hkeys.length_eq]

/-! ### Operation-level lemmas -/

theorem vh_computeKey_congr {V : Type} (hf : String → Nat → Nat)
    {t1 t2 : VirHashTable V} (hseed : t1.seed = t2.seed)
    (hlen : t1.table.length = t2.table.length) (name : String) :
    virHashComputeKey hf t1 name = virHashComputeKey hf t2 name := by
  simp [virHashComputeKey, hseed, hlen]

theorem vh_getD_map_names {V : Type} (l : List (List (VirHashEntry V))) (k : Nat)
    (hk : k < l.length) :
    (l.map (List.map (fun e => e.name))).getD k [] =
      (l.getD k []).map (fun e => e.name) := by
  rw [List.getD_eq_getElem _ _ (by simpa using hk), List.getD_eq_getElem _ _ hk,
    List.getElem_map]

theorem vh_map_set_names {V : Type} (l : List (List (VirHashEntry V))) (k : Nat)
    (b : List (VirHashEntry V)) (hk : k < l.length)
    (hb : b.map (fun e => e.name) = (l.getD k []).map (fun e => e.name)) :
    (l.set k b).map (List.map (fun e => e.name)) =
      l.map (List.map (fun e => e.name)) := by
  rw [List.map_set, hb, ← vh_getD_map_names l k hk,
    vh_set_getD_self _ _ (by simpa using hk)]

theorem vh_tableKeys_eq_of_map {V : Type} {t1 t2 : VirHashTable V}
    (h : t1.table.map (List.map (fun e => e.name)) =
      t2.table.map (List.map (fun e => e.name))) :
    tableKeys t1 = tableKeys t2 := by
  unfold tableKeys tableEntries
  rw [List.map_flatten, List.map_flatten, h]


theorem vh_find?_congr_mid {α : Type} {p : α → Bool} {a b : α}
    (pre post : List α) (ha : ¬ p a) (hb : ¬ p b) :
    List.find? p (pre ++ a :: post) = List.find? p (pre ++ b :: post) := by
  rw [List.find?_append, List.find?_append, List.find?_cons_of_neg _ ha,
    List.find?_cons_of_neg _ hb]

theorem vh_find?_drop_mid {α : Type} {p : α → Bool} {a : α}
    (pre post : List α) (ha : ¬ p a) :
    List.find? p (pre ++ a :: post) = List.find? p (pre ++ post) := by
  rw [List.find?_append, List.find?_append, List.find?_cons_of_neg _ ha]

theorem virHashGrow_isSome_iff {V : Type} (hf : String → Nat → Nat)
    (t : VirHashTable V) (size : Nat) :
    (virHashGrow hf t size).isSome ↔ 8 ≤ size ∧ size ≤ 8 * 2048 := by
  unfold virHashGrow
  by_cases h1 : size < 8
  · rw [if_pos h1]
    exact iff_of_false (by simp) (by omega)
  rw [if_neg h1]
  by_cases h2 : size > 8 * 2048
  · rw [if_pos h2]
    exact iff_of_false (by simp) (by omega)
  rw [if_neg h2]
  exact iff_of_true (by simp) (by omega)

theorem vh_addOrUpdate_not_found_eq {V : Type} (hf : String → Nat → Nat)
    (t : VirHashTable V) (name : String) (v : Option V) (is_update : Bool)
    (hcr : chainReplace name v (t.table.getD (virHashComputeKey hf t name) []) =
      none) :
    virHashAddOrUpdateEntry hf (some t) (some name) v is_update =
      (0, some (vh_addResult hf t name v), []) := by
  simp only [virHashAddOrUpdateEntry, hcr, vh_addResult, vh_tIns]

theorem vh_tIns_len {V : Type} (hf : String → Nat → Nat) (t : VirHashTable V)
    (name : String) (v : Option V) :
    (vh_tIns hf t name v).table.length = t.table.length := by
  simp [vh_tIns]

theorem vh_tIns_perm {V : Type} (hf : String → Nat → Nat) (t : VirHashTable V)
    (name : String) (v : Option V) (hlen : 0 < t.table.length) :
    (tableEntries (vh_tIns hf t name v)).Perm
      ({ name := name, payload := v } :: tableEntries t) := by
  have hklt := vh_computeKey_lt hf t name hlen
  have h1 := vh_flatten_set_perm t.table (virHashComputeKey hf t name)
    (t.table.getD (virHashComputeKey hf t name) [] ++
      [{ name := name, payload := v }]) hklt
  have h2 := vh_flatten_perm_getD t.table (virHashComputeKey hf t name) hklt
  unfold tableEntries vh_tIns
  refine h1.trans ?_
  rw [List.append_assoc, List.singleton_append]
  refine List.perm_middle.trans ?_
  exact List.Perm.cons _ h2.symm

theorem vh_tIns_WF {V : Type} {hf : String → Nat → Nat} {t : VirHashTable V}
    {name : String} {v : Option V} (hWF : WF hf t)
    (hmem : name ∉ tableKeys t) :
    WF hf (vh_tIns hf t name v) := by
  have hlen : 0 < t.table.length := hWF.1
  have hklt := vh_computeKey_lt hf t name hlen
  have hkp : (tableKeys (vh_tIns hf t name v)).Perm (name :: tableKeys t) := by
    unfold tableKeys
    simpa using (vh_tIns_perm hf t name v hlen).map (fun e => e.name)
  have hck : ∀ m, virHashComputeKey hf (vh_tIns hf t name v) m =
      virHashComputeKey hf t m := fun m =>
    vh_computeKey_congr hf (show (vh_tIns hf t name v).seed = t.seed from rfl)
      (vh_tIns_len hf t name v) m
  refine ⟨by rw [vh_tIns_len]; exact hlen, ?_, ?_, ?_⟩
  · intro i hi x hx
    rw [vh_tIns_len] at hi
    rw [hck]
    by_cases hik : virHashComputeKey hf t name = i
    · rw [show (vh_tIns hf t name v).table = t.table.set (virHashComputeKey hf t name)
          (t.table.getD (virHashComputeKey hf t name) [] ++
            [{ name := name, payload := v }]) from rfl, ← hik,
        vh_getD_set_self _ _ _ hklt] at hx
      rcases List.mem_append.mp hx with hx | hx
      · rw [← hik]
        exact hWF.2.1 _ hklt x hx
      · rw [List.mem_singleton.mp hx, ← hik]
    · rw [show (vh_tIns hf t name v).table = t.table.set (virHashComputeKey hf t name)
          (t.table.getD (virHashComputeKey hf t name) [] ++
            [{ name := name, payload := v }]) from rfl,
        vh_getD_set_ne _ _ _ _ hik] at hx
      exact hWF.2.1 i hi x hx
  · exact hkp.symm.nodup (List.nodup_cons.mpr ⟨hmem, hWF.2.2.1⟩)
  · have : (vh_tIns hf t name v).nbElems = t.nbElems + 1 := rfl
    rw [this, hkp.length_eq, List.length_cons, hWF.2.2.2]

/-- The appending branch of virHashAddOrUpdateEntry: when the name is not
in its chain the call succeeds, frees nothing, adds exactly the new entry,
bumps nbElems, and changes the capacity to 8 * size exactly when the old
chain length exceeds 8 and the grow request stays within bounds. -/
theorem vh_add_not_found_spec {V : Type} (hf : String → Nat → Nat)
    (t : VirHashTable V) (name : String) (v : Option V) (is_update : Bool)
    (hlen : 0 < t.table.length)
    (hnot : ∀ e ∈ t.table.getD (virHashComputeKey hf t name) [], e.name ≠ name) :
    virHashAddOrUpdateEntry hf (some t) (some name) v is_update =
      (0, some (vh_addResult hf t name v), []) ∧
    (tableEntries (vh_addResult hf t name v)).Perm
      ({ name := name, payload := v } :: tableEntries t) ∧
    (vh_addResult hf t name v).nbElems = t.nbElems + 1 ∧
    (vh_addResult hf t name v).seed = t.seed ∧
    (vh_addResult hf t name v).hasDataFree = t.hasDataFree ∧
    (vh_addResult hf t name v).table.length =
      (if (t.table.getD (virHashComputeKey hf t name) []).length > MAX_HASH_LEN
          ∧ MAX_HASH_LEN * t.table.length ≤ 8 * 2048
       then MAX_HASH_LEN * t.table.length else t.table.length) ∧
    (WF hf t → name ∉ tableKeys t → WF hf (vh_addResult hf t name v)) := by
  have hcr : chainReplace name v (t.table.getD (virHashComputeKey hf t name) []) =
      none := (chainReplace_eq_none_iff _ _ _).mpr hnot
  refine ⟨vh_addOrUpdate_not_found_eq hf t name v is_update hcr, ?_⟩
  unfold vh_addResult
  by_cases hgrow : (t.table.getD (virHashComputeKey hf t name) []).length >
      MAX_HASH_LEN
  · rw [if_pos hgrow]
    rcases hG : virHashGrow hf (vh_tIns hf t name v)
        (MAX_HASH_LEN * (vh_tIns hf t name v).table.length) with _ | tG
    · have hfail : ¬ (8 ≤ MAX_HASH_LEN * (vh_tIns hf t name v).table.length ∧
          MAX_HASH_LEN * (vh_tIns hf t name v).table.length ≤ 8 * 2048) := by
        intro hb
        have := (virHashGrow_isSome_iff hf (vh_tIns hf t name v) _).mpr hb
        rw [hG] at this
        cases this
      rw [vh_tIns_len] at hfail
      have hlow : 8 ≤ MAX_HASH_LEN * t.table.length := by
        unfold MAX_HASH_LEN
        omega
      refine ⟨vh_tIns_perm hf t name v hlen, rfl, rfl, rfl, ?_,
        fun hWF hmem => vh_tIns_WF hWF hmem⟩
      rw [vh_tIns_len, if_neg (by tauto)]
    · obtain ⟨hGlen, hGseed, hGnb, hGdf, hGperm, hGok, hGlo, hGhi⟩ :=
        virHashGrow_spec hG
      rw [vh_tIns_len] at hGlen
      refine ⟨hGperm.trans (vh_tIns_perm hf t name v hlen), ?_, ?_, ?_, ?_, ?_⟩
      · rw [hGnb]; rfl
      · rw [hGseed]; rfl
      · rw [hGdf]; rfl
      · rw [hGlen, if_pos ⟨hgrow, by rw [← vh_tIns_len hf t name v]; exact hGhi⟩]
      · intro hWF hmem
        exact (WF_grow (vh_tIns_WF hWF hmem) hG).1
  · rw [if_neg hgrow]
    refine ⟨vh_tIns_perm hf t name v hlen, rfl, rfl, rfl, ?_,
      fun hWF hmem => vh_tIns_WF hWF hmem⟩
    rw [vh_tIns_len, if_neg (by tauto)]

theorem vh_update_found_eq {V : Type} (hf : String → Nat → Nat)
    (t : VirHashTable V) (name : String) (v : Option V)
    {bucket' : List (VirHashEntry V)} {old : Option V}
    (hcr : chainReplace name v (t.table.getD (virHashComputeKey hf t name) []) =
      some (bucket', old)) :
    virHashAddOrUpdateEntry hf (some t) (some name) v true =
      (0, some { t with table := t.table.set (virHashComputeKey hf t name) bucket' },
       if t.hasDataFree then [old] else []) := by
  simp only [virHashAddOrUpdateEntry, hcr, if_true]

theorem vh_add_found_eq {V : Type} (hf : String → Nat → Nat)
    (t : VirHashTable V) (name : String) (v : Option V)
    {bucket' : List (VirHashEntry V)} {old : Option V}
    (hcr : chainReplace name v (t.table.getD (virHashComputeKey hf t name) []) =
      some (bucket', old)) :
    virHashAddOrUpdateEntry hf (some t) (some name) v false = (-1, some t, []) := by
  simp only [virHashAddOrUpdateEntry, hcr]
  simp

/-- Replacing one bucket with entries that either come from that bucket or
hash to its index preserves the structural invariant, provided key
uniqueness and the count are re-established. -/
theorem vh_WF_of_set {V : Type} {hf : String → Nat → Nat} {t : VirHashTable V}
    (hWF : WF hf t) (k : Nat) (hk : k < t.table.length)
    (b' : List (VirHashEntry V)) (n' : Nat)
    (hb' : ∀ x ∈ b', x ∈ t.table.getD k [] ∨ virHashComputeKey hf t x.name = k)
    (hnodup : (tableKeys { t with table := t.table.set k b', nbElems := n' }).Nodup)
    (hcount : n' =
      (tableKeys { t with table := t.table.set k b', nbElems := n' }).length) :
    WF hf { t with table := t.table.set k b', nbElems := n' } := by
  refine ⟨?_, ?_, hnodup, hcount⟩
  · show 0 < (t.table.set k b').length
    rw [List.length_set]
    exact hWF.1
  · intro i hi x hx
    have hi' : i < (t.table.set k b').length := hi
    rw [List.length_set] at hi'
    have hx' : x ∈ (t.table.set k b').getD i [] := hx
    have hck : virHashComputeKey hf
        { t with table := t.table.set k b', nbElems := n' } x.name =
        virHashComputeKey hf t x.name := by
      simp [virHashComputeKey]
    rw [hck]
    by_cases hik : k = i
    · subst hik
      rw [vh_getD_set_self _ _ _ hk] at hx'
      rcases hb' x hx' with hmem | hkey
      · exact hWF.2.1 k hk x hmem
      · exact hkey
    · rw [vh_getD_set_ne _ _ _ _ hik] at hx'
      exact hWF.2.1 i hi' x hx'

/-- Updating an existing key replaces its payload in place: the call
succeeds, the superseded payload (the previous lookup result) is the one
payload passed to the destructor, names and chain positions are untouched,
the count is unchanged, the key now looks up the new payload, and every
other key is unaffected. -/
theorem vh_update_mem_spec {V : Type} {hf : String → Nat → Nat}
    {t : VirHashTable V} (hWF : WF hf t) {name : String}
    (hmem : name ∈ tableKeys t) (v : Option V) :
    ∃ t',
      virHashUpdateEntry hf (some t) (some name) v =
        (0, some t',
         if t.hasDataFree then [virHashLookup hf (some t) (some name)] else []) ∧
      t'.table.map (List.map (fun e => e.name)) =
        t.table.map (List.map (fun e => e.name)) ∧
      t'.nbElems = t.nbElems ∧ t'.seed = t.seed ∧
      t'.hasDataFree = t.hasDataFree ∧
      virHashLookup hf (some t') (some name) = v ∧
      (∀ m, m ≠ name →
        virHashLookup hf (some t') (some m) = virHashLookup hf (some t) (some m)) ∧
      WF hf t' := by
  have hlen : 0 < t.table.length := hWF.1
  have hklt := vh_computeKey_lt hf t name hlen
  obtain ⟨e, heMem, heName⟩ := (vh_mem_keys_iff t name).mp hmem
  have hbmem : e ∈ t.table.getD (virHashComputeKey hf t name) [] := by
    rw [← heName]
    exact hWF.entry_bucket heMem
  have hsome : (chainReplace name v
      (t.table.getD (virHashComputeKey hf t name) [])).isSome :=
    (chainReplace_isSome_iff _ _ _).mpr ⟨e, hbmem, heName⟩
  obtain ⟨⟨bucket', old⟩, hcr⟩ := Option.isSome_iff_exists.mp hsome
  obtain ⟨pre, ef, post, hsplit, hpre, hfname, hfpay, hb'⟩ := chainReplace_eq_some hcr
  have hefMem : ef ∈ tableEntries t :=
    vh_mem_getD_flatten (l := t.table) (i := virHashComputeKey hf t name)
      (by rw [hsplit]; exact List.mem_append.mpr (Or.inr (List.mem_cons_self _ _)))
  have hlook : virHashLookup hf (some t) (some name) = old := by
    rw [vh_lookup_of_mem hWF hefMem hfname, hfpay]
  have hbnames : bucket'.map (fun x => x.name) =
      (t.table.getD (virHashComputeKey hf t name) []).map (fun x => x.name) := by
    rw [hb', hsplit]
    simp [hfname]
  have hmap : (t.table.set (virHashComputeKey hf t name) bucket').map
      (List.map (fun x => x.name)) = t.table.map (List.map (fun x => x.name)) :=
    vh_map_set_names t.table _ bucket' hklt hbnames
  have hkeq : tableKeys { t with
      table := t.table.set (virHashComputeKey hf t name) bucket'
      nbElems := t.nbElems } = tableKeys t :=
    vh_tableKeys_eq_of_map hmap
  have hWFt' : WF hf { t with
      table := t.table.set (virHashComputeKey hf t name) bucket'
      nbElems := t.nbElems } := by
    refine vh_WF_of_set hWF _ hklt bucket' t.nbElems ?_
      (by rw [hkeq]; exact hWF.2.2.1) (by rw [hkeq]; exact hWF.2.2.2)
    intro x hx
    rw [hb'] at hx
    rcases List.mem_append.mp hx with hx | hx
    · exact Or.inl (by rw [hsplit]; exact List.mem_append.mpr (Or.inl hx))
    · rcases List.mem_cons.mp hx with hx | hx
      · right
        rw [hx]
      · exact Or.inl
          (by rw [hsplit]
              exact List.mem_append.mpr (Or.inr (List.mem_cons_of_mem _ hx)))
  have hmidMem : ({ name := name, payload := v } : VirHashEntry V) ∈
      tableEntries { t with
        table := t.table.set (virHashComputeKey hf t name) bucket'
        nbElems := t.nbElems } := by
    show _ ∈ (t.table.set (virHashComputeKey hf t name) bucket').flatten
    refine vh_mem_getD_flatten (i := virHashComputeKey hf t name) ?_
    rw [vh_getD_set_self _ _ _ hklt, hb']
    exact List.mem_append.mpr (Or.inr (List.mem_cons_self _ _))
  have hpermX := vh_flatten_perm_getD t.table (virHashComputeKey hf t name) hklt
  have hpermT' := vh_flatten_set_perm t.table (virHashComputeKey hf t name)
    bucket' hklt
  refine ⟨{ t with
      table := t.table.set (virHashComputeKey hf t name) bucket'
      nbElems := t.nbElems },
    ?_, hmap, rfl, rfl, rfl, ?_, ?_, hWFt'⟩
  · rw [hlook]
    exact vh_update_found_eq hf t name v hcr
  · exact vh_lookup_of_mem hWFt' hmidMem rfl
  · intro m hm
    by_cases hm2 : m ∈ tableKeys t
    · obtain ⟨em, hemMem, hemName⟩ := (vh_mem_keys_iff t m).mp hm2
      have hemMem' : em ∈ tableEntries { t with
          table := t.table.set (virHashComputeKey hf t name) bucket'
          nbElems := t.nbElems } := by
        show em ∈ (t.table.set (virHashComputeKey hf t name) bucket').flatten
        rw [hpermT'.mem_iff]
        have : em ∈ t.table.getD (virHashComputeKey hf t name) [] ++
            (t.table.set (virHashComputeKey hf t name) []).flatten := by
          rw [← hpermX.mem_iff]
          exact hemMem
        rcases List.mem_append.mp this with hcase | hcase
        · rw [hsplit] at hcase
          rcases List.mem_append.mp hcase with hcase | hcase
          · exact List.mem_append.mpr (Or.inl (by
              rw [hb']
              exact List.mem_append.mpr (Or.inl hcase)))
          · rcases List.mem_cons.mp hcase with hcase | hcase
            · exfalso
              apply hm
              rw [← hemName, hcase, hfname]
            · exact List.mem_append.mpr (Or.inl (by
                rw [hb']
                exact List.mem_append.mpr (Or.inr (List.mem_cons_of_mem _ hcase))))
        · exact List.mem_append.mpr (Or.inr hcase)
      rw [vh_lookup_of_mem hWFt' hemMem' hemName,
        vh_lookup_of_mem hWF hemMem hemName]
    · rw [vh_lookup_not_mem hf t m hm2]
      apply vh_lookup_not_mem
      rw [hkeq]
      exact hm2

theorem vh_remove_found_eq {V : Type} (hf : String → Nat → Nat)
    (t : VirHashTable V) (name : String)
    {bucket' : List (VirHashEntry V)} {p : Option V}
    (hcr : chainRemove name (t.table.getD (virHashComputeKey hf t name) []) =
      some (bucket', p)) :
    virHashRemoveEntry hf (some t) (some name) =
      (0, some { t with
        table := t.table.set (virHashComputeKey hf t name) bucket'
        nbElems := t.nbElems - 1 },
       if t.hasDataFree then [p] else []) := by
  simp only [virHashRemoveEntry, hcr]

theorem vh_remove_not_mem {V : Type} (hf : String → Nat → Nat)
    (t : VirHashTable V) (name : String) (h : name ∉ tableKeys t) :
    virHashRemoveEntry hf (some t) (some name) = (-1, some t, []) := by
  have hcr : chainRemove name (t.table.getD (virHashComputeKey hf t name) []) =
      none := by
    rw [chainRemove_eq_none_iff]
    intro e he hn
    exact h ((vh_mem_keys_iff t name).mpr ⟨e, vh_mem_getD_flatten he, hn⟩)
  simp only [virHashRemoveEntry, hcr]

/-- Removing a present key succeeds, hands exactly its payload to the
destructor (when one is set), unlinks exactly that entry, decrements the
count, leaves every other key untouched, and preserves the invariant. -/
theorem vh_remove_mem_spec {V : Type} {hf : String → Nat → Nat}
    {t : VirHashTable V} (hWF : WF hf t) {name : String}
    (hmem : name ∈ tableKeys t) :
    ∃ t' p,
      virHashRemoveEntry hf (some t) (some name) =
        (0, some t', if t.hasDataFree then [p] else []) ∧
      virHashLookup hf (some t) (some name) = p ∧
      (tableEntries t).Perm ({ name := name, payload := p } :: tableEntries t') ∧
      t'.nbElems + 1 = t.nbElems ∧
      t'.seed = t.seed ∧ t'.hasDataFree = t.hasDataFree ∧
      name ∉ tableKeys t' ∧
      virHashHasEntry hf (some t') (some name) = false ∧
      virHashLookup hf (some t') (some name) = none ∧
      (∀ m, m ≠ name →
        virHashLookup hf (some t') (some m) = virHashLookup hf (some t) (some m)) ∧
      WF hf t' := by
  have hlen : 0 < t.table.length := hWF.1
  have hklt := vh_computeKey_lt hf t name hlen
  obtain ⟨e, heMem, heName⟩ := (vh_mem_keys_iff t name).mp hmem
  have hbmem : e ∈ t.table.getD (virHashComputeKey hf t name) [] := by
    rw [← heName]
    exact hWF.entry_bucket heMem
  have hsome : (chainRemove name
      (t.table.getD (virHashComputeKey hf t name) [])).isSome :=
    (chainRemove_isSome_iff _ _).mpr ⟨e, hbmem, heName⟩
  obtain ⟨⟨bucket', p⟩, hcr⟩ := Option.isSome_iff_exists.mp hsome
  obtain ⟨pre, ef, post, hsplit, hpre, hfname, hfpay, hb'⟩ := chainRemove_eq_some hcr
  have hefMem : ef ∈ tableEntries t :=
    vh_mem_getD_flatten (l := t.table) (i := virHashComputeKey hf t name)
      (by rw [hsplit]; exact List.mem_append.mpr (Or.inr (List.mem_cons_self _ _)))
  have hlook : virHashLookup hf (some t) (some name) = p := by
    rw [vh_lookup_of_mem hWF hefMem hfname, hfpay]
  have hefEq : ({ name := name, payload := p } : VirHashEntry V) = ef := by
    cases ef
    simp at hfname hfpay
    simp [hfname, hfpay]
  have hpermX := vh_flatten_perm_getD t.table (virHashComputeKey hf t name) hklt
  have hpermT' := vh_flatten_set_perm t.table (virHashComputeKey hf t name)
    bucket' hklt
  have hperm : (tableEntries t).Perm
      (ef :: (t.table.set (virHashComputeKey hf t name) bucket').flatten) := by
    refine hpermX.trans ?_
    rw [hsplit, List.append_assoc, List.cons_append]
    refine List.perm_middle.trans ?_
    refine List.Perm.cons ef ?_
    rw [← List.append_assoc, ← hb']
    exact hpermT'.symm
  have hkeysPerm : (tableKeys t).Perm
      (name :: (tableKeys { t with
        table := t.table.set (virHashComputeKey hf t name) bucket'
        nbElems := t.nbElems - 1 })) := by
    unfold tableKeys
    have h := hperm.map (fun x : VirHashEntry V => x.name)
    rw [List.map_cons, hfname] at h
    exact h
  have hcons : (name :: (tableKeys { t with
      table := t.table.set (virHashComputeKey hf t name) bucket'
      nbElems := t.nbElems - 1 })).Nodup := hkeysPerm.nodup hWF.2.2.1
  have hnotMem' : name ∉ tableKeys { t with
      table := t.table.set (virHashComputeKey hf t name) bucket'
      nbElems := t.nbElems - 1 } := (List.nodup_cons.mp hcons).1
  have hnodup' : (tableKeys { t with
      table := t.table.set (virHashComputeKey hf t name) bucket'
      nbElems := t.nbElems - 1 }).Nodup := (List.nodup_cons.mp hcons).2
  have hcountSucc : t.nbElems = (tableKeys { t with
      table := t.table.set (virHashComputeKey hf t name) bucket'
      nbElems := t.nbElems - 1 }).length + 1 := by
    have hl := hkeysPerm.length_eq
    rw [List.length_cons] at hl
    have h22 := hWF.2.2.2
    omega
  have hWFt' : WF hf { t with
      table := t.table.set (virHashComputeKey hf t name) bucket'
      nbElems := t.nbElems - 1 } := by
    refine vh_WF_of_set hWF _ hklt bucket' (t.nbElems - 1) ?_ hnodup' (by omega)
    intro x hx
    rw [hb'] at hx
    rcases List.mem_append.mp hx with hx | hx
    · exact Or.inl (by rw [hsplit]; exact List.mem_append.mpr (Or.inl hx))
    · exact Or.inl
        (by rw [hsplit]
            exact List.mem_append.mpr (Or.inr (List.mem_cons_of_mem _ hx)))
  refine ⟨{ t with
      table := t.table.set (virHashComputeKey hf t name) bucket'
      nbElems := t.nbElems - 1 }, p,
    vh_remove_found_eq hf t name hcr, hlook, ?_,
    (show t.nbElems - 1 + 1 = t.nbElems by omega), rfl, rfl,
    hnotMem', ?_, vh_lookup_not_mem hf _ name hnotMem', ?_, hWFt'⟩
  · rw [hefEq]
    exact hperm
  · simp [virHashHasEntry, vh_getEntry_eq_none hf _ name hnotMem']
  · intro m hm
    by_cases hm2 : m ∈ tableKeys t
    · obtain ⟨em, hemMem, hemName⟩ := (vh_mem_keys_iff t m).mp hm2
      have hemMem' : em ∈ tableEntries { t with
          table := t.table.set (virHashComputeKey hf t name) bucket'
          nbElems := t.nbElems - 1 } := by
        show em ∈ (t.table.set (virHashComputeKey hf t name) bucket').flatten
        rw [hpermT'.mem_iff]
        have hsplitMem : em ∈ t.table.getD (virHashComputeKey hf t name) [] ++
            (t.table.set (virHashComputeKey hf t name) []).flatten := by
          rw [← hpermX.mem_iff]
          exact hemMem
        rcases List.mem_append.mp hsplitMem with hcase | hcase
        · rw [hsplit] at hcase
          rcases List.mem_append.mp hcase with hcase | hcase
          · exact List.mem_append.mpr (Or.inl (by
              rw [hb']
              exact List.mem_append.mpr (Or.inl hcase)))
          · rcases List.mem_cons.mp hcase with hcase | hcase
            · exfalso
              apply hm
              rw [← hemName, hcase, hfname]
            · exact List.mem_append.mpr (Or.inl (by
                rw [hb']
                exact List.mem_append.mpr (Or.inr hcase)))
        · exact List.mem_append.mpr (Or.inr hcase)
      rw [vh_lookup_of_mem hWFt' hemMem' hemName,
        vh_lookup_of_mem hWF hemMem hemName]
    · rw [vh_lookup_not_mem hf t m hm2]
      apply vh_lookup_not_mem
      intro hc
      apply hm2
      rw [hkeysPerm.mem_iff]
      exact List.mem_cons_of_mem _ hc

/-- A strict add on a key already present fails and mutates nothing: the
very table travels through unchanged and no payload is freed. -/
theorem vh_add_mem_spec {V : Type} {hf : String → Nat → Nat}
    {t : VirHashTable V} (hWF : WF hf t) {name : String}
    (hmem : name ∈ tableKeys t) (v : Option V) :
    virHashAddEntry hf (some t) (some name) v = (-1, some t, []) := by
  obtain ⟨e, heMem, heName⟩ := (vh_mem_keys_iff t name).mp hmem
  have hbmem : e ∈ t.table.getD (virHashComputeKey hf t name) [] := by
    rw [← heName]
    exact hWF.entry_bucket heMem
  have hsome : (chainReplace name v
      (t.table.getD (virHashComputeKey hf t name) [])).isSome :=
    (chainReplace_isSome_iff _ _ _).mpr ⟨e, hbmem, heName⟩
  obtain ⟨⟨bucket', old⟩, hcr⟩ := Option.isSome_iff_exists.mp hsome
  exact vh_add_found_eq hf t name v hcr

/-! ### virHashRemoveSet -/

theorem chainRemoveSet_sublist {V : Type} (pr : Option V → String → Bool)
    (b : List (VirHashEntry V)) : (chainRemoveSet pr b).1.Sublist b := by
  induction b with
  | nil => exact List.Sublist.refl _
  | cons e rest ih =>
    by_cases he : pr e.payload e.name
    · simp only [chainRemoveSet, if_pos he]
      exact ih.cons e
    · simp only [chainRemoveSet, if_neg he]
      exact ih.cons₂ e

theorem chainRemoveSet_length {V : Type} (pr : Option V → String → Bool)
    (b : List (VirHashEntry V)) :
    (chainRemoveSet pr b).1.length + (chainRemoveSet pr b).2.1 = b.length := by
  induction b with
  | nil => rfl
  | cons e rest ih =>
    by_cases he : pr e.payload e.name
    · simp only [chainRemoveSet, if_pos he, List.length_cons]
      omega
    · simp only [chainRemoveSet, if_neg he, List.length_cons]
      omega

theorem vh_getD_map_lists {α β : Type} (f : List α → List β)
    (l : List (List α)) (k : Nat) (hk : k < l.length) :
    (l.map f).getD k [] = f (l.getD k []) := by
  rw [List.getD_eq_getElem _ _ (by simpa using hk), List.getD_eq_getElem _ _ hk,
    List.getElem_map]

theorem vh_flatten_map_sub {α : Type} (f : List α → List α)
    (l : List (List α)) (hsub : ∀ b ∈ l, (f b).Sublist b) :
    ((l.map f).flatten).Sublist l.flatten := by
  induction l with
  | nil => exact List.Sublist.refl _
  | cons b rest ih =>
    simp only [List.map_cons, List.flatten_cons]
    exact List.Sublist.append (hsub b (List.mem_cons_self _ _))
      (ih (fun x hx => hsub x (List.mem_cons_of_mem _ hx)))

theorem vh_removeSet_count {V : Type} (pr : Option V → String → Bool)
    (l : List (List (VirHashEntry V))) :
    ((l.map (fun b => (chainRemoveSet pr b).1)).flatten).length +
      ((l.map (fun b => (chainRemoveSet pr b).2.1)).sum) = l.flatten.length := by
  induction l with
  | nil => rfl
  | cons b rest ih =>
    simp only [List.map_cons, List.flatten_cons, List.length_append, List.sum_cons]
    have hb := chainRemoveSet_length pr b
    omega

/-- virHashRemoveSet preserves the structural invariant: the surviving
entries are a sublist of the old ones, in their old buckets, and nbElems
drops by exactly the removal count. -/
theorem vh_removeSet_WF {V : Type} {hf : String → Nat → Nat}
    {t : VirHashTable V} (hWF : WF hf t) (pr : Option V → String → Bool) :
    WF hf { t with
      table := t.table.map (fun b => (chainRemoveSet pr b).1)
      nbElems := t.nbElems -
        ((t.table.map (fun b => (chainRemoveSet pr b).2.1)).sum) } := by
  have hsubfl : ((t.table.map (fun b => (chainRemoveSet pr b).1)).flatten).Sublist
      t.table.flatten :=
    vh_flatten_map_sub _ t.table (fun b _ => chainRemoveSet_sublist pr b)
  refine ⟨?_, ?_, ?_, ?_⟩
  · show 0 < (t.table.map (fun b => (chainRemoveSet pr b).1)).length
    rw [List.length_map]
    exact hWF.1
  · intro i hi x hx
    have hi' : i < (t.table.map (fun b => (chainRemoveSet pr b).1)).length := hi
    rw [List.length_map] at hi'
    have hx' : x ∈ (t.table.map (fun b => (chainRemoveSet pr b).1)).getD i [] := hx
    rw [vh_getD_map_lists _ _ _ hi'] at hx'
    have hxold : x ∈ t.table.getD i [] :=
      (chainRemoveSet_sublist pr _).mem hx'
    have hck : virHashComputeKey hf { t with
        table := t.table.map (fun b => (chainRemoveSet pr b).1)
        nbElems := t.nbElems -
          ((t.table.map (fun b => (chainRemoveSet pr b).2.1)).sum) } x.name =
        virHashComputeKey hf t x.name := by
      simp [virHashComputeKey]
    rw [hck]
    exact hWF.2.1 i hi' x hxold
  · show ((t.table.map (fun b => (chainRemoveSet pr b).1)).flatten.map
      (fun e => e.name)).Nodup
    exact (hsubfl.map (fun e => e.name)).nodup
      (show (t.table.flatten.map (fun e : VirHashEntry V => e.name)).Nodup from
        hWF.2.2.1)
  · show t.nbElems - ((t.table.map (fun b => (chainRemoveSet pr b).2.1)).sum) =
      ((t.table.map (fun b => (chainRemoveSet pr b).1)).flatten.map
        (fun e => e.name)).length
    have hcnt := vh_removeSet_count pr t.table
    have h22 := hWF.2.2.2
    have hkl : (tableKeys t).length = t.table.flatten.length := by
      unfold tableKeys tableEntries
      rw [List.length_map]
    rw [List.length_map]
    omega

/-! ### The invariant along operation sequences -/

theorem vh_WF_new {V : Type} (hf : String → Nat → Nat) (seed : Nat)
    (df : Bool) : WF hf (virHashNew V seed df) := by
  refine ⟨by simp [virHashNew], ?_, ?_, ?_⟩
  · intro i hi e he
    have he' : e ∈ (List.replicate 32 ([] : List (VirHashEntry V))).getD i [] := he
    rw [vh_getD_replicate] at he'
    cases he'
  · show ((List.replicate 32 ([] : List (VirHashEntry V))).flatten.map
      (fun e => e.name)).Nodup
    rw [vh_flatten_replicate_nil]
    exact List.nodup_nil
  · show 0 = ((List.replicate 32 ([] : List (VirHashEntry V))).flatten.map
      (fun e => e.name)).length
    rw [vh_flatten_replicate_nil]
    rfl

theorem vh_WF_applyOp {V : Type} {hf : String → Nat → Nat}
    {t : VirHashTable V} (hWF : WF hf t) (op : HashOp V) :
    WF hf (applyOp hf t op) := by
  cases op with
  | add name v =>
    by_cases hmem : name ∈ tableKeys t
    · show WF hf (((virHashAddEntry hf (some t) (some name) v).2.1).getD t)
      rw [vh_add_mem_spec hWF hmem v]
      exact hWF
    · have hnot : ∀ e ∈ t.table.getD (virHashComputeKey hf t name) [],
          e.name ≠ name := fun e he hn =>
        hmem ((vh_mem_keys_iff t name).mpr ⟨e, vh_mem_getD_flatten he, hn⟩)
      obtain ⟨heq, _, _, _, _, _, hwf⟩ :=
        vh_add_not_found_spec hf t name v false hWF.1 hnot
      show WF hf (((virHashAddEntry hf (some t) (some name) v).2.1).getD t)
      unfold virHashAddEntry
      rw [heq]
      exact hwf hWF hmem
  | update name v =>
    by_cases hmem : name ∈ tableKeys t
    · obtain ⟨t', heq, _, _, _, _, _, _, hwf⟩ := vh_update_mem_spec hWF hmem v
      show WF hf (((virHashUpdateEntry hf (some t) (some name) v).2.1).getD t)
      rw [heq]
      exact hwf
    · have hnot : ∀ e ∈ t.table.getD (virHashComputeKey hf t name) [],
          e.name ≠ name := fun e he hn =>
        hmem ((vh_mem_keys_iff t name).mpr ⟨e, vh_mem_getD_flatten he, hn⟩)
      obtain ⟨heq, _, _, _, _, _, hwf⟩ :=
        vh_add_not_found_spec hf t name v true hWF.1 hnot
      show WF hf (((virHashUpdateEntry hf (some t) (some name) v).2.1).getD t)
      unfold virHashUpdateEntry
      rw [heq]
      exact hwf hWF hmem
  | remove name =>
    by_cases hmem : name ∈ tableKeys t
    · obtain ⟨t', p, heq, _, _, _, _, _, _, _, _, _, hwf⟩ :=
        vh_remove_mem_spec hWF hmem
      show WF hf (((virHashRemoveEntry hf (some t) (some name)).2.1).getD t)
      rw [heq]
      exact hwf
    · show WF hf (((virHashRemoveEntry hf (some t) (some name)).2.1).getD t)
      rw [vh_remove_not_mem hf t name hmem]
      exact hWF
  | removeSet pr =>
    show WF hf (((virHashRemoveSet (some t) pr).2.1).getD t)
    exact vh_removeSet_WF hWF pr

theorem vh_WF_applyOps {V : Type} {hf : String → Nat → Nat}
    (ops : List (HashOp V)) {t : VirHashTable V} (hWF : WF hf t) :
    WF hf (applyOps hf ops t) := by
  induction ops generalizing t with
  | nil => exact hWF
  | cons op rest ih =>
    exact ih (vh_WF_applyOp hWF op)

/-! ### The strcmp order -/

theorem charListLt_irrefl (as : List Char) : charListLt as as = false := by
  induction as with
  | nil => rfl
  | cons a rest ih => simp [charListLt, ih]

theorem charListLt_asymm : ∀ (as bs : List Char), charListLt as bs = true →
    charListLt bs as = false := by
  intro as
  induction as with
  | nil =>
    intro bs h
    cases bs with
    | nil => simp [charListLt] at h
    | cons b bs => rfl
  | cons a rest ih =>
    intro bs h
    cases bs with
    | nil => simp [charListLt] at h
    | cons b bs =>
      simp only [charListLt] at h ⊢
      by_cases h1 : a.toNat < b.toNat
      · rw [if_neg (by omega), if_pos h1]
      · by_cases h2 : b.toNat < a.toNat
        · rw [if_neg h1, if_pos h2] at h
          cases h
        · rw [if_neg h1, if_neg h2] at h
          rw [if_neg h2, if_neg h1]
          exact ih bs h

theorem charListLt_conn : ∀ (as bs : List Char), charListLt as bs = false →
    charListLt bs as = false → as = bs := by
  intro as
  induction as with
  | nil =>
    intro bs h1 h2
    cases bs with
    | nil => rfl
    | cons b bs => simp [charListLt] at h1
  | cons a rest ih =>
    intro bs h1 h2
    cases bs with
    | nil => simp [charListLt] at h2
    | cons b bs =>
      simp only [charListLt] at h1 h2
      by_cases hab : a.toNat < b.toNat
      · rw [if_pos hab] at h1
        cases h1
      · by_cases hba : b.toNat < a.toNat
        · rw [if_pos hba] at h2
          cases h2
        · rw [if_neg hab, if_neg hba] at h1
          rw [if_neg hba, if_neg hab] at h2
          have hc : a = b := by
            apply Char.ext
            apply UInt32.eq_of_toBitVec_eq
            apply BitVec.eq_of_toNat_eq
            have hn : a.toNat = b.toNat := by omega
            exact hn
          rw [hc, ih bs h1 h2]

theorem charListLt_trans : ∀ (as bs cs : List Char), charListLt as bs = true →
    charListLt bs cs = true → charListLt as cs = true := by
  intro as
  induction as with
  | nil =>
    intro bs cs h1 h2
    cases cs with
    | nil =>
      cases bs with
      | nil => simp [charListLt] at h1
      | cons b bs => simp [charListLt] at h2
    | cons c cs => rfl
  | cons a rest ih =>
    intro bs cs h1 h2
    cases bs with
    | nil => simp [charListLt] at h1
    | cons b bs =>
      cases cs with
      | nil => simp [charListLt] at h2
      | cons c cs =>
        simp only [charListLt] at h1 h2 ⊢
        by_cases hab : a.toNat < b.toNat
        · by_cases hbc : b.toNat < c.toNat
          · rw [if_pos (by omega)]
          · by_cases hcb : c.toNat < b.toNat
            · rw [if_neg (by omega), if_pos hcb] at h2
              cases h2
            · rw [if_pos (by omega)]
        · by_cases hba : b.toNat < a.toNat
          · rw [if_neg hab, if_pos hba] at h1
            cases h1
          · rw [if_neg hab, if_neg hba] at h1
            by_cases hbc : b.toNat < c.toNat
            · rw [if_pos (by omega)]
            · by_cases hcb : c.toNat < b.toNat
              · rw [if_neg hbc, if_pos hcb] at h2
                cases h2
              · rw [if_neg hbc, if_neg hcb] at h2
                rw [if_neg (by omega), if_neg (by omega)]
                exact ih bs cs h1 h2

theorem charListLe_trans (as bs cs : List Char) (h1 : charListLt bs as = false)
    (h2 : charListLt cs bs = false) : charListLt cs as = false := by
  by_cases hbc : charListLt bs cs = true
  · by_cases hca : charListLt cs as = true
    · have ht := charListLt_trans bs cs as hbc hca
      rw [ht] at h1
      cases h1
    · simpa using hca
  · have hbc' : charListLt bs cs = false := by simpa using hbc
    have hbceq : bs = cs := charListLt_conn bs cs hbc' h2
    rw [← hbceq]
    exact h1

theorem strcmpLe_total (a b : String) : (strcmpLe a b || strcmpLe b a) = true := by
  unfold strcmpLe
  by_cases h : charListLt b.data a.data = true
  · rw [h, charListLt_asymm _ _ h]
    simp
  · have h' : charListLt b.data a.data = false := by simpa using h
    rw [h']
    simp

theorem strcmpLe_trans (a b c : String) (h1 : strcmpLe a b = true)
    (h2 : strcmpLe b c = true) : strcmpLe a c = true := by
  simp only [strcmpLe, Bool.not_eq_true'] at h1 h2 ⊢
  exact charListLe_trans _ _ _ h1 h2

theorem strcmpLe_ne_lt (a b : String) (hle : strcmpLe a b = true) (hne : a ≠ b) :
    charListLt a.data b.data = true := by
  simp only [strcmpLe, Bool.not_eq_true'] at hle
  by_cases hab : charListLt a.data b.data = true
  · exact hab
  · exfalso
    have hd : a.data = b.data := charListLt_conn _ _ (by simpa using hab) hle
    exact hne (String.ext hd)

/-! ### Helpers for steal and equal -/

theorem vh_getEntry_some_mem {V : Type} (hf : String → Nat → Nat)
    (t : VirHashTable V) (name : String) (e : VirHashEntry V)
    (h : virHashGetEntry hf (some t) (some name) = some e) :
    e ∈ tableEntries t ∧ e.name = name := by
  simp only [virHashGetEntry] at h
  refine ⟨vh_mem_getD_flatten (List.mem_of_find?_eq_some h), ?_⟩
  have hp := @List.find?_some _ _ _ _ h
  simpa using hp

theorem vh_lookup_some_mem {V : Type} (hf : String → Nat → Nat)
    (t : VirHashTable V) (name : String) (d : V)
    (h : virHashLookup hf (some t) (some name) = some d) :
    name ∈ tableKeys t := by
  simp only [virHashLookup] at h
  rcases hg : virHashGetEntry hf (some t) (some name) with _ | e
  · rw [hg] at h
    cases h
  · obtain ⟨hm, hn⟩ := vh_getEntry_some_mem hf t name e hg
    exact (vh_mem_keys_iff t name).mpr ⟨e, hm, hn⟩

theorem vh_equalSearch_iff {V : Type} (hf : String → Nat → Nat)
    (t2 : VirHashTable V) (compar : Option V → Option V → Int)
    (l : List (VirHashEntry V)) :
    virHashEqualSearch hf t2 compar l = true ↔
      ∀ e ∈ l, virHashLookup hf (some t2) (some e.name) ≠ none ∧
        compar (virHashLookup hf (some t2) (some e.name)) e.payload = 0 := by
  induction l with
  | nil => simp [virHashEqualSearch]
  | cons e rest ih =>
    simp only [virHashEqualSearch]
    by_cases hc : ((virHashLookup hf (some t2) (some e.name)).isNone ||
        (compar (virHashLookup hf (some t2) (some e.name)) e.payload != 0)) = true
    · rw [if_pos hc]
      simp only [Bool.or_eq_true, Option.isNone_iff_eq_none, bne_iff_ne] at hc
      constructor
      · intro h
        cases h
      · intro hall
        obtain ⟨h1, h2⟩ := hall e (List.mem_cons_self _ _)
        exfalso
        rcases hc with hc | hc
        · exact h1 hc
        · exact hc h2
    · rw [if_neg hc]
      rw [ih]
      simp only [Bool.or_eq_true, Option.isNone_iff_eq_none, bne_iff_ne,
        not_or, not_not] at hc
      constructor
      · intro h x hx
        rcases List.mem_cons.mp hx with hx | hx
        · subst hx
          exact ⟨hc.1, hc.2⟩
        · exact h x hx
      · intro hall x hx
        exact hall x (List.mem_cons_of_mem _ hx)

/-! ### The claims -/

/-- C4: on a table that already holds the key, a strict add fails with the
duplicate-key error (-1), hands nothing to the destructor, and returns the
table unchanged, so the original payload, every lookup, and the element
count are exactly as before. -/
theorem virHash_C4_add_duplicate (V : Type) (hf : String → Nat → Nat)
    (t : VirHashTable V) (name : String) (v : Option V)
    (hWF : WF hf t) (hmem : name ∈ tableKeys t) :
    virHashAddEntry hf (some t) (some name) v = (-1, some t, []) ∧
    virHashLookup hf ((virHashAddEntry hf (some t) (some name) v).2.1)
      (some name) = virHashLookup hf (some t) (some name) ∧
    virHashSize ((virHashAddEntry hf (some t) (some name) v).2.1) =
      virHashSize (some t) := by
  have h := vh_add_mem_spec hWF hmem v
  rw [h]
  exact ⟨rfl, rfl, rfl⟩

/-- C5: updating a key that is present succeeds, passes the superseded
payload (and nothing else) to the destructor when one is set, keeps every
entry name at its position in its chain, keeps the element count, and
afterwards the key looks up the new payload while all other keys are
untouched. -/
theorem virHash_C5_update_in_place (V : Type) (hf : String → Nat → Nat)
    (t : VirHashTable V) (name : String) (v : Option V)
    (hWF : WF hf t) (hmem : name ∈ tableKeys t) :
    ∃ t',
      virHashUpdateEntry hf (some t) (some name) v =
        (0, some t',
         if t.hasDataFree then [virHashLookup hf (some t) (some name)] else []) ∧
      t'.table.map (List.map (fun e => e.name)) =
        t.table.map (List.map (fun e => e.name)) ∧
      virHashSize (some t') = virHashSize (some t) ∧
      virHashLookup hf (some t') (some name) = v ∧
      (∀ m, m ≠ name →
        virHashLookup hf (some t') (some m) = virHashLookup hf (some t) (some m)) := by
  obtain ⟨t', heq, hmap, hnb, _, _, hlookNew, hothers, _⟩ :=
    vh_update_mem_spec hWF hmem v
  refine ⟨t', heq, hmap, ?_, hlookNew, hothers⟩
  show (t'.nbElems : Int) = (t.nbElems : Int)
  rw [hnb]

/-- C6: removing a present key succeeds, invokes the destructor (when set)
on exactly that payload, unlinks the entry (afterwards the key is absent)
and decrements the count; removing an absent key, or calling with a null
table or null name, fails with -1 and changes nothing. -/
theorem virHash_C6_remove (V : Type) (hf : String → Nat → Nat) :
    (∀ (t : VirHashTable V) (name : String), WF hf t → name ∈ tableKeys t →
      ∃ t' p,
        virHashRemoveEntry hf (some t) (some name) =
          (0, some t', if t.hasDataFree then [p] else []) ∧
        virHashLookup hf (some t) (some name) = p ∧
        t'.nbElems + 1 = t.nbElems ∧
        virHashHasEntry hf (some t') (some name) = false ∧
        (∀ m, m ≠ name →
          virHashLookup hf (some t') (some m) = virHashLookup hf (some t) (some m))) ∧
    (∀ (t : VirHashTable V) (name : String), name ∉ tableKeys t →
      virHashRemoveEntry hf (some t) (some name) = (-1, some t, [])) ∧
    (∀ name? : Option String,
      virHashRemoveEntry hf (none : Option (VirHashTable V)) name? = (-1, none, [])) ∧
    (∀ t : VirHashTable V,
      virHashRemoveEntry hf (some t) (none : Option String) = (-1, some t, [])) := by
  refine ⟨?_, ?_, ?_, ?_⟩
  · intro t name hWF hmem
    obtain ⟨t', p, heq, hlook, _, hnbsucc, _, _, _, hhasE, _, hothers, _⟩ :=
      vh_remove_mem_spec hWF hmem
    exact ⟨t', p, heq, hlook, hnbsucc, hhasE, hothers⟩
  · intro t name hmem
    exact vh_remove_not_mem hf t name hmem
  · intro name?
    cases name? with
    | none => rfl
    | some name => rfl
  · intro t
    rfl

/-- C10: stealing a key whose stored payload is the NULL pointer returns
NULL and removes nothing: the table comes back unchanged, the entry is
still present, and the count is the same, so the result is
indistinguishable from stealing an absent key. -/
theorem virHash_C10_steal_null (V : Type) (hf : String → Nat → Nat)
    (t : VirHashTable V) (name : String)
    (hhas : virHashHasEntry hf (some t) (some name) = true)
    (hlook : virHashLookup hf (some t) (some name) = none) :
    virHashSteal hf (some t) (some name) = (none, some t, []) ∧
    virHashHasEntry hf ((virHashSteal hf (some t) (some name)).2.1)
      (some name) = true ∧
    virHashSize ((virHashSteal hf (some t) (some name)).2.1) =
      virHashSize (some t) := by
  have h1 : virHashSteal hf (some t) (some name) = (none, some t, []) := by
    simp only [virHashSteal, hlook]
  rw [h1]
  exact ⟨rfl, hhas, rfl⟩

/-- C7 counterexample: the claim fails as stated. vhTNull holds the key
"a" with a NULL payload; steal of "a" returns NULL but does NOT remove the
entry: the table is returned unchanged, the key is still present, and the
count is unchanged, contradicting "removes the entry from the table". -/
theorem virHash_C7_cex :
    virHashHasEntry hfZ (some vhTNull) (some "a") = true ∧
    virHashLookup hfZ (some vhTNull) (some "a") = none ∧
    (virHashSteal hfZ (some vhTNull) (some "a")).1 = none ∧
    (virHashSteal hfZ (some vhTNull) (some "a")).2.1 = some vhTNull ∧
    virHashHasEntry hfZ ((virHashSteal hfZ (some vhTNull) (some "a")).2.1)
      (some "a") = true ∧
    virHashSize ((virHashSteal hfZ (some vhTNull) (some "a")).2.1) =
      virHashSize (some vhTNull) := by
  decide

/-- C7 as amended: for every table containing a key whose payload is
non-NULL, steal returns that payload, removes the entry (the key is absent
afterwards and the count drops by one), never invokes the destructor, and
leaves every other key untouched. The amendment restricts the claim to
non-NULL payloads; a stored NULL payload is not removed (see the
counterexample and C10). -/
theorem virHash_C7_steal_nonnull (V : Type) (hf : String → Nat → Nat)
    (t : VirHashTable V) (name : String) (d : V)
    (hWF : WF hf t) (hlook : virHashLookup hf (some t) (some name) = some d) :
    ∃ t', virHashSteal hf (some t) (some name) = (some d, some t', []) ∧
      virHashHasEntry hf (some t') (some name) = false ∧
      virHashLookup hf (some t') (some name) = none ∧
      t'.nbElems + 1 = t.nbElems ∧
      (∀ m, m ≠ name →
        virHashLookup hf (some t') (some m) = virHashLookup hf (some t) (some m)) := by
  have hWFM : WF hf { t with hasDataFree := false } := hWF
  have hmem : name ∈ tableKeys t := vh_lookup_some_mem hf t name d hlook
  have hmemM : name ∈ tableKeys { t with hasDataFree := false } := hmem
  obtain ⟨t'', p, heqR, hlookM, hperm, hnbsucc, hseed, hdf, hnotmem, hhasE,
    hlookN, hothers, hWFpp⟩ := vh_remove_mem_spec hWFM hmemM
  refine ⟨{ t'' with hasDataFree := t.hasDataFree }, ?_, hhasE, hlookN,
    hnbsucc, ?_⟩
  · simp only [virHashSteal, hlook]
    rw [heqR]
    rfl
  · intro m hm
    exact hothers m hm

/-- C3: a successful grow preserves the key-to-payload mapping - the key
multiset is unchanged and every lookup (present or absent) gives the same
answer as before - and afterwards every entry sits in the bucket selected
by hashing its name against the new size. -/
theorem virHash_C3_grow_preserves (V : Type) (hf : String → Nat → Nat)
    (t t' : VirHashTable V) (size : Nat)
    (hWF : WF hf t) (hg : virHashGrow hf t size = some t') :
    (tableKeys t').Perm (tableKeys t) ∧
    (∀ name, virHashLookup hf (some t') (some name) =
      virHashLookup hf (some t) (some name)) ∧
    (∀ i < t'.table.length, ∀ e ∈ t'.table.getD i [],
      virHashComputeKey hf t' e.name = i) := by
  obtain ⟨hWFg, hkeys, hnb, hseed, hdf⟩ := WF_grow hWF hg
  obtain ⟨hlen, _, _, _, hperm, hok, _, _⟩ := virHashGrow_spec hg
  refine ⟨hkeys, ?_, hok⟩
  intro name
  by_cases hmem : name ∈ tableKeys t
  · obtain ⟨e, heMem, heName⟩ := (vh_mem_keys_iff t name).mp hmem
    have heMemG : e ∈ tableEntries t' := hperm.mem_iff.mpr heMem
    rw [vh_lookup_of_mem hWFg heMemG heName, vh_lookup_of_mem hWF heMem heName]
  · rw [vh_lookup_not_mem hf t name hmem,
      vh_lookup_not_mem hf t' name (fun hc => hmem (hkeys.mem_iff.mp hc))]

/-- C2 counterexample: after inserting nine distinct keys that all hash to
bucket 0, the chain just grown holds 9 entries - it exceeds the threshold
8 - and the in-range grow request 8 * 32 = 256 would have succeeded, yet
the capacity is still 32: no grow was triggered, refuting "triggered
exactly when the chain just grown now exceeds the length threshold 8". -/
theorem virHash_C2_cex :
    (vhT9.table.getD 0 []).length = 9 ∧
    vhT9.table.length = 32 ∧
    (8 ≤ 8 * 32 ∧ 8 * 32 ≤ 16384) ∧
    (virHashGrow hfZ vhT9 (8 * 32)).isSome = true := by
  decide

/-- C2 as amended: an insertion that appends a new entry always succeeds
(code 0, the key is present afterwards), and the capacity becomes
8 * currentCapacity exactly when the chain length before the append
exceeds 8 (the chain just grown has more than 9 entries) and the request
8 * currentCapacity is at most 16384; otherwise - no trigger, or a
request outside [8, 16384] - the rejected or untriggered grow is silently
absorbed and the capacity stays. -/
theorem virHash_C2_grow_trigger (V : Type) (hf : String → Nat → Nat)
    (t : VirHashTable V) (name : String) (v : Option V) (is_update : Bool)
    (hlen : 0 < t.table.length)
    (hnot : ∀ e ∈ t.table.getD (virHashComputeKey hf t name) [], e.name ≠ name) :
    (virHashAddOrUpdateEntry hf (some t) (some name) v is_update).1 = 0 ∧
    ∃ t', (virHashAddOrUpdateEntry hf (some t) (some name) v is_update).2.1 =
        some t' ∧
      name ∈ tableKeys t' ∧
      t'.table.length =
        (if 8 < (t.table.getD (virHashComputeKey hf t name) []).length ∧
            8 * t.table.length ≤ 16384
         then 8 * t.table.length else t.table.length) := by
  obtain ⟨heq, hperm, _, _, _, hlenF, _⟩ :=
    vh_add_not_found_spec hf t name v is_update hlen hnot
  rw [heq]
  refine ⟨rfl, vh_addResult hf t name v, rfl, ?_, ?_⟩
  · have hk : (tableKeys (vh_addResult hf t name v)).Perm (name :: tableKeys t) := by
      unfold tableKeys
      simpa using hperm.map (fun e => e.name)
    exact hk.mem_iff.mpr (List.mem_cons_self _ _)
  · rw [hlenF]
    rfl

/-- C1: starting from a fresh table, after any sequence of add, update and
remove (including removeSet) operations the reported size equals the
number of distinct keys present; moreover, from any such reachable state,
an add of a new key raises the size by one, an update of an existing key
leaves it unchanged, and a successful remove lowers it by one. -/
theorem virHash_C1_size_tracks_distinct_keys (V : Type)
    (hf : String → Nat → Nat) (seed : Nat) (df : Bool) (ops : List (HashOp V)) :
    virHashSize (some (applyOps hf ops (virHashNew V seed df))) =
      ((tableKeys (applyOps hf ops (virHashNew V seed df))).dedup.length : Int) ∧
    (∀ name v, name ∉ tableKeys (applyOps hf ops (virHashNew V seed df)) →
      virHashSize ((virHashAddEntry hf
          (some (applyOps hf ops (virHashNew V seed df))) (some name) v).2.1) =
        virHashSize (some (applyOps hf ops (virHashNew V seed df))) + 1) ∧
    (∀ name v, name ∈ tableKeys (applyOps hf ops (virHashNew V seed df)) →
      virHashSize ((virHashUpdateEntry hf
          (some (applyOps hf ops (virHashNew V seed df))) (some name) v).2.1) =
        virHashSize (some (applyOps hf ops (virHashNew V seed df)))) ∧
    (∀ name, (virHashRemoveEntry hf
          (some (applyOps hf ops (virHashNew V seed df))) (some name)).1 = 0 →
      virHashSize ((virHashRemoveEntry hf
          (some (applyOps hf ops (virHashNew V seed df))) (some name)).2.1) =
        virHashSize (some (applyOps hf ops (virHashNew V seed df))) - 1) := by
  have hWF : WF hf (applyOps hf ops (virHashNew V seed df)) :=
    vh_WF_applyOps ops (vh_WF_new hf seed df)
  set t := applyOps hf ops (virHashNew V seed df) with ht
  refine ⟨?_, ?_, ?_, ?_⟩
  · show (t.nbElems : Int) = ((tableKeys t).dedup.length : Int)
    rw [List.dedup_eq_self.mpr hWF.2.2.1, hWF.2.2.2]
  · intro name v hmem
    have hnot : ∀ e ∈ t.table.getD (virHashComputeKey hf t name) [],
        e.name ≠ name := fun e he hn =>
      hmem ((vh_mem_keys_iff t name).mpr ⟨e, vh_mem_getD_flatten he, hn⟩)
    obtain ⟨heq, _, hnb, _, _, _, _⟩ :=
      vh_add_not_found_spec hf t name v false hWF.1 hnot
    show virHashSize ((virHashAddOrUpdateEntry hf (some t) (some name) v
      false).2.1) = virHashSize (some t) + 1
    rw [heq]
    show ((vh_addResult hf t name v).nbElems : Int) = (t.nbElems : Int) + 1
    rw [hnb]
    push_cast
    ring
  · intro name v hmem
    obtain ⟨t', heq, _, hnb, _, _, _, _, _⟩ := vh_update_mem_spec hWF hmem v
    rw [heq]
    show (t'.nbElems : Int) = (t.nbElems : Int)
    rw [hnb]
  · intro name hret
    have hmem : name ∈ tableKeys t := by
      by_contra hmem
      rw [vh_remove_not_mem hf t name hmem] at hret
      simp at hret
    obtain ⟨t', p, heq, _, _, hnbsucc, _, _, _, _, _, _, _⟩ :=
      vh_remove_mem_spec hWF hmem
    rw [heq]
    show (t'.nbElems : Int) = (t.nbElems : Int) - 1
    omega

/-- C8: equal is true for the same reference (the aliasing test, modelled
by the sameRef parameter, short-circuits to true); otherwise it is false
when the element counts differ, and with equal counts it is true exactly
when every entry of table1 finds, by its key, a non-NULL value in table2
comparing equal under compar(value2, value1) - only table1's keys are
walked. -/
theorem virHash_C8_equal (V : Type) (hf : String → Nat → Nat)
    (compar : Option V → Option V → Int) :
    (∀ t? : Option (VirHashTable V), virHashEqual hf true t? t? compar = true) ∧
    (∀ t1 t2 : VirHashTable V,
      virHashSize (some t1) ≠ virHashSize (some t2) →
      virHashEqual hf false (some t1) (some t2) compar = false) ∧
    (∀ t1 t2 : VirHashTable V,
      virHashSize (some t1) = virHashSize (some t2) →
      (virHashEqual hf false (some t1) (some t2) compar = true ↔
        ∀ e ∈ tableEntries t1,
          virHashLookup hf (some t2) (some e.name) ≠ none ∧
          compar (virHashLookup hf (some t2) (some e.name)) e.payload = 0)) := by
  refine ⟨?_, ?_, ?_⟩
  · intro t?
    rfl
  · intro t1 t2 hne
    simp only [virHashEqual]
    rw [if_neg (by simp)]
    rw [if_pos hne]
  · intro t1 t2 heq
    simp only [virHashEqual]
    rw [if_neg (by simp)]
    rw [if_neg (by rw [heq]; exact fun h => h rfl)]
    exact vh_equalSearch_iff hf t2 compar (tableEntries t1)

/-- Sorted snapshot: under the invariant, getItems with sorting returns
exactly nbElems pairs, a permutation of the live (key, value) pairs, in
strictly increasing strcmp order of the keys. -/
theorem vh_getItems_sorted_spec {V : Type} {hf : String → Nat → Nat}
    {t : VirHashTable V} (hWF : WF hf t) :
    (virHashGetItems t true).length = t.nbElems ∧
    (virHashGetItems t true).Perm (tableItems t) ∧
    (virHashGetItems t true).Pairwise
      (fun a b => charListLt a.1.data b.1.data = true) := by
  have hperm : (virHashGetItems t true).Perm (tableItems t) :=
    List.mergeSort_perm (tableItems t) _
  have hkeysmap : (tableItems t).map (fun p => p.1) = tableKeys t := by
    unfold tableItems tableKeys
    rw [List.map_map]
    rfl
  have hnodup : ((virHashGetItems t true).map (fun p => p.1)).Nodup := by
    apply (hperm.map (fun p : String × Option V => p.1)).symm.nodup
    rw [hkeysmap]
    exact hWF.2.2.1
  refine ⟨?_, hperm, ?_⟩
  · rw [hperm.length_eq]
    unfold tableItems
    rw [List.length_map]
    have hk := hWF.2.2.2
    unfold tableKeys at hk
    rw [List.length_map] at hk
    omega
  · have hle : (virHashGetItems t true).Pairwise
        (fun a b => strcmpLe a.1 b.1 = true) := by
      have hs := @List.sorted_mergeSort (String × Option V)
        (fun a b => strcmpLe a.1 b.1)
        (fun a b c h1 h2 => strcmpLe_trans a.1 b.1 c.1 h1 h2)
        (fun a b => strcmpLe_total a.1 b.1) (tableItems t)
      exact hs
    have hne : (virHashGetItems t true).Pairwise (fun a b => a.1 ≠ b.1) :=
      List.pairwise_map.mp hnodup
    exact (hle.and hne).imp (fun h => strcmpLe_ne_lt _ _ h.1 h.2)

/-- One add of a fresh key, seen through applyOp: the entry multiset gains
exactly the new entry and the invariant is preserved. -/
theorem vh_applyOp_add_spec {V : Type} {hf : String → Nat → Nat}
    {t : VirHashTable V} (hWF : WF hf t) {name : String}
    (hmem : name ∉ tableKeys t) (v : Option V) :
    (tableEntries (applyOp hf t (HashOp.add name v))).Perm
      ({ name := name, payload := v } :: tableEntries t) ∧
    WF hf (applyOp hf t (HashOp.add name v)) := by
  have hnot : ∀ e ∈ t.table.getD (virHashComputeKey hf t name) [],
      e.name ≠ name := fun e he hn =>
    hmem ((vh_mem_keys_iff t name).mpr ⟨e, vh_mem_getD_flatten he, hn⟩)
  obtain ⟨heq, hperm, _, _, _, _, hwf⟩ :=
    vh_add_not_found_spec hf t name v false hWF.1 hnot
  constructor
  · show (tableEntries (((virHashAddEntry hf (some t) (some name) v).2.1).getD
      t)).Perm _
    unfold virHashAddEntry
    rw [heq]
    exact hperm
  · show WF hf (((virHashAddEntry hf (some t) (some name) v).2.1).getD t)
    unfold virHashAddEntry
    rw [heq]
    exact hwf hWF hmem

/-- C9: getItems with sorting returns, before the terminating sentinel,
exactly size(table) (key, value) pairs - every live entry exactly once -
in strictly increasing byte-wise key order; consequently forEachSorted
over a table populated with keys b, a, c invokes the callback in the
exact key order a, b, c. -/
theorem virHash_C9_sorted_items (V : Type) (hf : String → Nat → Nat) :
    (∀ t : VirHashTable V, WF hf t →
      (virHashGetItems t true).length = t.nbElems ∧
      (virHashGetItems t true).Perm (tableItems t) ∧
      (virHashGetItems t true).Pairwise
        (fun a b => charListLt a.1.data b.1.data = true)) ∧
    (∀ (seed : Nat) (df : Bool) (v1 v2 v3 : Option V),
      (virHashForEachSorted
        (applyOps hf [HashOp.add "b" v1, HashOp.add "a" v2, HashOp.add "c" v3]
          (virHashNew V seed df))
        (fun s _ k => (s ++ [k], 0)) ([] : List String)).1 = ["a", "b", "c"]) := by
  constructor
  · intro t hWF
    exact vh_getItems_sorted_spec hWF
  · intro seed df v1 v2 v3
    have hWF0 := vh_WF_new (V := V) hf seed df
    have hE0 : tableEntries (virHashNew V seed df) = [] :=
      vh_flatten_replicate_nil 32
    have hK0 : tableKeys (virHashNew V seed df) = [] := by
      unfold tableKeys
      rw [hE0]
      rfl
    have hm1 : "b" ∉ tableKeys (virHashNew V seed df) := by
      rw [hK0]
      simp
    obtain ⟨hperm1, hWF1⟩ := vh_applyOp_add_spec hWF0 hm1 v1
    have hkeys1 : (tableKeys (applyOp hf (virHashNew V seed df)
        (HashOp.add "b" v1))).Perm ["b"] := by
      unfold tableKeys
      have h := hperm1.map (fun e : VirHashEntry V => e.name)
      rw [List.map_cons, hE0] at h
      exact h
    have hm2 : "a" ∉ tableKeys (applyOp hf (virHashNew V seed df)
        (HashOp.add "b" v1)) := by
      intro hc
      have := hkeys1.mem_iff.mp hc
      simp at this
    obtain ⟨hperm2, hWF2⟩ := vh_applyOp_add_spec hWF1 hm2 v2
    have hkeys2 : (tableKeys (applyOp hf (applyOp hf (virHashNew V seed df)
        (HashOp.add "b" v1)) (HashOp.add "a" v2))).Perm ["a", "b"] := by
      unfold tableKeys
      have h := hperm2.map (fun e : VirHashEntry V => e.name)
      rw [List.map_cons] at h
      refine h.trans ?_
      refine List.Perm.cons _ ?_
      have h1 : (List.map (fun e : VirHashEntry V => e.name)
          (tableEntries (applyOp hf (virHashNew V seed df)
            (HashOp.add "b" v1)))).Perm ["b"] := hkeys1
      exact h1
    have hm3 : "c" ∉ tableKeys (applyOp hf (applyOp hf (virHashNew V seed df)
        (HashOp.add "b" v1)) (HashOp.add "a" v2)) := by
      intro hc
      have := hkeys2.mem_iff.mp hc
      simp at this
    obtain ⟨hperm3, hWF3⟩ := vh_applyOp_add_spec hWF2 hm3 v3
    have hitems : (tableItems (applyOp hf (applyOp hf (applyOp hf
        (virHashNew V seed df) (HashOp.add "b" v1)) (HashOp.add "a" v2))
        (HashOp.add "c" v3))).Perm
        [("a", v2), ("b", v1), ("c", v3)] := by
      unfold tableItems
      have h3 := hperm3.map (fun e : VirHashEntry V => (e.name, e.payload))
      rw [List.map_cons] at h3
      refine h3.trans ?_
      have h2 := hperm2.map (fun e : VirHashEntry V => (e.name, e.payload))
      rw [List.map_cons] at h2
      have h1 := hperm1.map (fun e : VirHashEntry V => (e.name, e.payload))
      rw [List.map_cons, hE0] at h1
      have htail : (List.map (fun e : VirHashEntry V => (e.name, e.payload))
          (tableEntries (applyOp hf (applyOp hf (virHashNew V seed df)
            (HashOp.add "b" v1)) (HashOp.add "a" v2)))).Perm
          [("a", v2), ("b", v1)] := by
        refine h2.trans ?_
        exact List.Perm.cons _ h1
      have hcons : ((("c", v3) : String × Option V) ::
          List.map (fun e : VirHashEntry V => (e.name, e.payload))
            (tableEntries (applyOp hf (applyOp hf (virHashNew V seed df)
              (HashOp.add "b" v1)) (HashOp.add "a" v2)))).Perm
          [("c", v3), ("a", v2), ("b", v1)] := List.Perm.cons _ htail
      refine hcons.trans ?_
      exact @List.perm_append_comm _ [("c", v3)] [("a", v2), ("b", v1)]
    obtain ⟨_, hpermS, hsorted⟩ := vh_getItems_sorted_spec hWF3
    have hsortedL : List.Pairwise
        (fun a b : String × Option V => charListLt a.1.data b.1.data = true)
        [("a", v2), ("b", v1), ("c", v3)] := by
      refine List.Pairwise.cons ?_ (List.Pairwise.cons ?_
        (List.Pairwise.cons ?_ List.Pairwise.nil))
      · intro q hq
        rcases List.mem_cons.mp hq with hq | hq
        · rw [hq]
          show charListLt "a".data "b".data = true
          decide
        · rcases List.mem_cons.mp hq with hq | hq
          · rw [hq]
            show charListLt "a".data "c".data = true
            decide
          · cases hq
      · intro q hq
        rcases List.mem_cons.mp hq with hq | hq
        · rw [hq]
          show charListLt "b".data "c".data = true
          decide
        · cases hq
      · intro q hq
        cases hq
    haveI : IsAntisymm (String × Option V)
        (fun a b => charListLt a.1.data b.1.data = true) := by
      refine ⟨fun a b h1 h2 => ?_⟩
      have hfa := charListLt_asymm _ _ h1
      rw [h2] at hfa
      cases hfa
    have hgetEq : virHashGetItems (applyOp hf (applyOp hf (applyOp hf
        (virHashNew V seed df) (HashOp.add "b" v1)) (HashOp.add "a" v2))
        (HashOp.add "c" v3)) true = [("a", v2), ("b", v1), ("c", v3)] := by
      refine List.eq_of_perm_of_sorted (hpermS.trans hitems) hsorted hsortedL
    show (virHashIterate (fun s _ k => (s ++ [k], (0 : Int)))
      (virHashGetItems (applyOp hf (applyOp hf (applyOp hf
        (virHashNew V seed df) (HashOp.add "b" v1)) (HashOp.add "a" v2))
        (HashOp.add "c" v3)) true) ([] : List String)).1 = ["a", "b", "c"]
    rw [hgetEq]
    simp [virHashIterate]

/-! ### Concrete instantiations -/

/-- C1 instantiated on a concrete two-key table. -/
theorem virHash_C1_witness :
    virHashSize (some vhT0) = ((tableKeys vhT0).dedup.length : Int) ∧
    virHashSize ((virHashAddEntry hfZ (some vhT0) (some "c") (some 3)).2.1) =
      virHashSize (some vhT0) + 1 ∧
    virHashSize ((virHashUpdateEntry hfZ (some vhT0) (some "a") (some 7)).2.1) =
      virHashSize (some vhT0) ∧
    virHashSize ((virHashRemoveEntry hfZ (some vhT0) (some "a")).2.1) =
      virHashSize (some vhT0) - 1 := by
  have H := virHash_C1_size_tracks_distinct_keys Nat hfZ 0 true
    [HashOp.add "a" (some 1), HashOp.add "b" (some 2)]
  exact ⟨H.1, H.2.1 "c" (some 3) (by decide), H.2.2.1 "a" (some 7) (by decide),
    H.2.2.2 "a" (by decide)⟩

/-- C2 (amended) instantiated: inserting a tenth key into the 9-long chain
triggers the grow and the capacity becomes 8 * 32 = 256. -/
theorem virHash_C2_witness :
    (virHashAddOrUpdateEntry hfZ (some vhT9) (some "q") (some 0) false).1 = 0 ∧
    ∃ t', (virHashAddOrUpdateEntry hfZ (some vhT9) (some "q") (some 0)
        false).2.1 = some t' ∧
      "q" ∈ tableKeys t' ∧
      t'.table.length =
        (if 8 < (vhT9.table.getD (virHashComputeKey hfZ vhT9 "q") []).length ∧
            8 * vhT9.table.length ≤ 16384
         then 8 * vhT9.table.length else vhT9.table.length) :=
  virHash_C2_grow_trigger Nat hfZ vhT9 "q" (some 0) false (by decide) (by decide)

/-- C3 instantiated on a concrete grow from 32 to 256 buckets. -/
theorem virHash_C3_witness :
    (tableKeys ((virHashGrow hfZ vhT0 256).getD (virHashNew Nat 0 true))).Perm
      (tableKeys vhT0) ∧
    virHashLookup hfZ
      (some ((virHashGrow hfZ vhT0 256).getD (virHashNew Nat 0 true)))
      (some "a") = virHashLookup hfZ (some vhT0) (some "a") := by
  have H := virHash_C3_grow_preserves Nat hfZ vhT0
    ((virHashGrow hfZ vhT0 256).getD (virHashNew Nat 0 true)) 256
    (by decide) (by decide)
  exact ⟨H.1, H.2.1 "a"⟩

/-- C4 instantiated: re-adding the present key "a" fails and mutates
nothing. -/
theorem virHash_C4_witness :
    virHashAddEntry hfZ (some vhT0) (some "a") (some 9) = (-1, some vhT0, []) ∧
    virHashLookup hfZ ((virHashAddEntry hfZ (some vhT0) (some "a")
      (some 9)).2.1) (some "a") = virHashLookup hfZ (some vhT0) (some "a") ∧
    virHashSize ((virHashAddEntry hfZ (some vhT0) (some "a") (some 9)).2.1) =
      virHashSize (some vhT0) :=
  virHash_C4_add_duplicate Nat hfZ vhT0 "a" (some 9) (by decide) (by decide)

/-- C5 instantiated: updating the present key "a". -/
theorem virHash_C5_witness :
    ∃ t', virHashUpdateEntry hfZ (some vhT0) (some "a") (some 9) =
        (0, some t',
         if vhT0.hasDataFree then [virHashLookup hfZ (some vhT0) (some "a")]
         else []) ∧
      t'.table.map (List.map (fun e => e.name)) =
        vhT0.table.map (List.map (fun e => e.name)) ∧
      virHashSize (some t') = virHashSize (some vhT0) ∧
      virHashLookup hfZ (some t') (some "a") = some 9 ∧
      (∀ m, m ≠ "a" →
        virHashLookup hfZ (some t') (some m) = virHashLookup hfZ (some vhT0) (some m)) :=
  virHash_C5_update_in_place Nat hfZ vhT0 "a" (some 9) (by decide) (by decide)

/-- C6 instantiated: removing the present key "a", an absent key, and the
null-argument cases. -/
theorem virHash_C6_witness :
    (∃ t' p, virHashRemoveEntry hfZ (some vhT0) (some "a") =
        (0, some t', if vhT0.hasDataFree then [p] else []) ∧
      virHashLookup hfZ (some vhT0) (some "a") = p ∧
      t'.nbElems + 1 = vhT0.nbElems ∧
      virHashHasEntry hfZ (some t') (some "a") = false ∧
      (∀ m, m ≠ "a" →
        virHashLookup hfZ (some t') (some m) =
          virHashLookup hfZ (some vhT0) (some m))) ∧
    virHashRemoveEntry hfZ (some vhT0) (some "zz") = (-1, some vhT0, []) ∧
    virHashRemoveEntry hfZ (none : Option (VirHashTable Nat)) (some "a") =
      (-1, none, []) ∧
    virHashRemoveEntry hfZ (some vhT0) (none : Option String) =
      (-1, some vhT0, []) := by
  have H := virHash_C6_remove Nat hfZ
  exact ⟨H.1 vhT0 "a" (by decide) (by decide), H.2.1 vhT0 "zz" (by decide),
    H.2.2.1 (some "a"), H.2.2.2 vhT0⟩

/-- C7 (amended) instantiated: stealing the non-NULL payload of "a". -/
theorem virHash_C7_witness :
    ∃ t', virHashSteal hfZ (some vhT0) (some "a") = (some 1, some t', []) ∧
      virHashHasEntry hfZ (some t') (some "a") = false ∧
      virHashLookup hfZ (some t') (some "a") = none ∧
      t'.nbElems + 1 = vhT0.nbElems ∧
      (∀ m, m ≠ "a" →
        virHashLookup hfZ (some t') (some m) =
          virHashLookup hfZ (some vhT0) (some m)) :=
  virHash_C7_steal_nonnull Nat hfZ vhT0 "a" 1 (by decide) (by decide)

/-- C8 instantiated on concrete tables: the same reference, differing
counts, and equal counts with the full characterization. -/
theorem virHash_C8_witness :
    virHashEqual hfZ true (some vhT0) (some vhT0)
      (fun a b => if a = b then (0 : Int) else 1) = true ∧
    virHashEqual hfZ false (some vhT0) (some vhTNull)
      (fun a b => if a = b then (0 : Int) else 1) = false ∧
    (virHashEqual hfZ false (some vhT0) (some vhT1)
        (fun a b => if a = b then (0 : Int) else 1) = true ↔
      ∀ e ∈ tableEntries vhT0,
        virHashLookup hfZ (some vhT1) (some e.name) ≠ none ∧
        (fun a b => if a = b then (0 : Int) else 1)
          (virHashLookup hfZ (some vhT1) (some e.name)) e.payload = 0) := by
  have H := virHash_C8_equal Nat hfZ (fun a b => if a = b then (0 : Int) else 1)
  exact ⟨H.1 (some vhT0), H.2.1 vhT0 vhTNull (by decide),
    H.2.2 vhT0 vhT1 (by decide)⟩

/-- C9 instantiated: the sorted snapshot of the b/a/c table and the sorted
iteration trace a, b, c. -/
theorem virHash_C9_witness :
    ((virHashGetItems vhTbac true).length = vhTbac.nbElems ∧
     (virHashGetItems vhTbac true).Perm (tableItems vhTbac) ∧
     (virHashGetItems vhTbac true).Pairwise
       (fun a b => charListLt a.1.data b.1.data = true)) ∧
    (virHashForEachSorted
      (applyOps hfZ
        [HashOp.add "b" (some 1), HashOp.add "a" (some 2), HashOp.add "c" (some 3)]
        (virHashNew Nat 0 false))
      (fun s _ k => (s ++ [k], 0)) ([] : List String)).1 = ["a", "b", "c"] := by
  have H := virHash_C9_sorted_items Nat hfZ
  exact ⟨H.1 vhTbac (by decide), H.2 0 false (some 1) (some 2) (some 3)⟩

/-- C10 instantiated: stealing the NULL payload of "a" from vhTNull leaves
the entry in place. -/
theorem virHash_C10_witness :
    virHashSteal hfZ (some vhTNull) (some "a") = (none, some vhTNull, []) ∧
    virHashHasEntry hfZ ((virHashSteal hfZ (some vhTNull) (some "a")).2.1)
      (some "a") = true ∧
    virHashSize ((virHashSteal hfZ (some vhTNull) (some "a")).2.1) =
      virHashSize (some vhTNull) :=
  virHash_C10_steal_null Nat hfZ vhTNull "a" (by decide) (by decide)
